import Mathlib

/-!
Verification of `scripts/dashcam-backup.py` (Tesla dashcam backup utility).

The script is embedded shallowly:

* The filesystem is a finite tree (`Entry` / `Entries`).  A directory's
  children form an association structure keyed by entry name; `Entry.other`
  stands for directory entries that are neither regular files nor
  directories (sockets, fifos, broken links, ...).
* Paths are component lists (`Path`); the Python code builds paths by
  string concatenation with `"/"`, which corresponds to `List.append`.
* `print` output is modelled as an accumulated `List String`.
* A Python exception that the script does not catch (`FileNotFoundError`,
  `FileExistsError`, `IsADirectoryError`, `NameError`, ...) aborts the run;
  such aborted computations are modelled as `none`.
* Byte contents of files are modelled as `List Nat`.
-/

namespace DashcamModel

abbrev Path := List String

mutual

inductive Entry where
  | file : List Nat → Entry
  | dir : Entries → Entry
  | other : Entry

inductive Entries where
  | nil : Entries
  | cons : String → Entry → Entries → Entries

end

/-- Find the child with the given name in a directory's children. -/
def findChild : Entries → String → Option Entry
  | .nil, _ => none
  | .cons m c rest, n => if m = n then some c else findChild rest n

/-- Replace the child with the given name (or append it when absent). -/
def setChild : Entries → String → Entry → Entries
  | .nil, n, v => .cons n v .nil
  | .cons m c rest, n, v =>
      if m = n then .cons n v rest else .cons m c (setChild rest n v)

/-- Resolve a path in the filesystem tree, as the OS resolves a path name. -/
def Entry.lookup : Entry → Path → Option Entry
  | e, [] => some e
  | .dir cs, n :: p =>
      match findChild cs n with
      | some c => Entry.lookup c p
      | none => none
  | .file _, _ :: _ => none
  | .other, _ :: _ => none

/-- Write `v` at the given path.  Every proper ancestor of the path must
already be an existing directory (otherwise `none`, as the OS fails with
`ENOENT`/`ENOTDIR`); the final component is created or replaced. -/
def Entry.setAt : Entry → Path → Entry → Option Entry
  | _, [], v => some v
  | .dir cs, [n], v => some (.dir (setChild cs n v))
  | .dir cs, n :: m :: p, v =>
      match findChild cs n with
      | some c => (Entry.setAt c (m :: p) v).map (fun c2 => .dir (setChild cs n c2))
      | none => none
  | .file _, _ :: _, _ => none
  | .other, _ :: _, _ => none

/-- The names of a directory's children, in order. -/
def entryNames : Entries → List String
  | .nil => []
  | .cons n _ rest => n :: entryNames rest

/-- Children as a plain list of name/entry pairs (specification view). -/
def Entries.toList : Entries → List (String × Entry)
  | .nil => []
  | .cons n c rest => (n, c) :: Entries.toList rest

/-- `entry.is_dir()`. -/
def isDirE : Entry → Bool
  | .dir _ => true
  | _ => false

/-- `entry.is_file()`. -/
def isFileE : Entry → Bool
  | .file _ => true
  | _ => false

/-- Whether the path resolves to a regular file. -/
def isFileAt (fs : Entry) (p : Path) : Bool :=
  match Entry.lookup fs p with
  | some (.file _) => true
  | _ => false

/-- `str.startswith(pre)`, computed on the underlying character lists. -/
def strStartsWith (s pre : String) : Bool :=
  List.isPrefixOf pre.data s.data

/-- `str.endswith(post)`, computed on the underlying character lists. -/
def strEndsWith (s post : String) : Bool :=
  List.isSuffixOf post.data s.data

/-- Boolean path-extension test: `leadsInto p q = true` iff `q`
is `p` followed by further components (`p` leads into `q`). -/
def leadsInto : Path → Path → Bool
  | [], _ => true
  | _ :: _, [] => false
  | a :: p, b :: q => if a = b then leadsInto p q else false

/-- Render a component path the way the Python code renders its
slash-separated absolute path strings. -/
def pathStr (p : Path) : String :=
  "/" ++ String.intercalate "/" p

/-- `os.mkdir`: fails when the path is empty, already exists
(`FileExistsError`) or its parent is not an existing directory
(`FileNotFoundError`/`NotADirectoryError`); otherwise creates exactly
the leaf as an empty directory. -/
def mkdirRaw (fs : Entry) (p : Path) : Option Entry :=
  if p.isEmpty then none
  else if (Entry.lookup fs p).isSome then none
  else
    match Entry.lookup fs p.dropLast with
    | some (.dir _) => Entry.setAt fs p (.dir .nil)
    | _ => none

/-- `shutil.copy(src, dst)`: the source must be a regular file; when `dst`
is an existing directory the file is copied into it under the source's
base name (failing with `IsADirectoryError` when that target is itself a
directory), otherwise `dst` names the target file, which is created or
overwritten. -/
def shutilCopy (fs : Entry) (src dst : Path) : Option Entry :=
  match Entry.lookup fs src with
  | some (.file c) =>
      match Entry.lookup fs dst with
      | some (.dir _) =>
          match src.getLast? with
          | some n =>
              match Entry.lookup fs (dst ++ [n]) with
              | some (.dir _) => none
              | _ => Entry.setAt fs (dst ++ [n]) (.file c)
          | none => none
      | some (.file _) => Entry.setAt fs dst (.file c)
      | some .other => none
      | none => Entry.setAt fs dst (.file c)
  | _ => none

/-- The fixed clip subdirectory names (`DashcamBackup.__sub_directories`). -/
def subDirectories : List String := ["RecentClips", "SavedClips", "SentryClips"]

/-- The fixed root folder name (`DashcamBackup.__root_directory`). -/
def rootDirectory : String := "TeslaCam"

/-- The fixed source-volume name token checked by `startswith`. -/
def driveNameStart : String := "TESLADRIVE"

/-- The constructor arguments of the `DashcamBackup` class. -/
structure DashcamBackup where
  source : Path
  destination : Path
  verbose : Bool

/-- Program state threaded through the script: the filesystem plus the
text printed so far. -/
structure St where
  fs : Entry
  out : List String

/-- `DashcamBackup.__make_directory_if_not_exist`.  The two message
arguments are printed unconditionally around the `os.mkdir` call.  Output
already printed when `os.mkdir` raises is not tracked on the `none` path. -/
def makeDirectoryIfNotExist (st : St) (path : Path)
    (notExistMessage creationMessage : String) : Option St :=
  if (Entry.lookup st.fs path).isSome then some st
  else
    match mkdirRaw st.fs path with
    | some fs2 => some ⟨fs2, st.out ++ [notExistMessage, creationMessage]⟩
    | none => none

def depthMsg (p : Path) : String :=
  "Depth not supported for: " ++ pathStr p

/-- The Python line prints `f"Unknown entry type: {entry}"` with the
`os.DirEntry` repr; the entry is represented here by its path. -/
def unknownMsg (p : Path) : String :=
  "Unknown entry type: " ++ pathStr p

def copyingMsg (p d : Path) : String :=
  "Copying " ++ pathStr p ++ " to " ++ pathStr d

def processedMsg (n : Nat) (src dst : Path) : String :=
  "Processed " ++ toString n ++ " entries from " ++ pathStr src ++ " to " ++ pathStr dst

def srcNotExistMsg (p : Path) : String :=
  "Source path " ++ pathStr p ++ " does not exist"

def srcCreatingMsg (p : Path) : String :=
  "Creating source path " ++ pathStr p

def dstNotExistMsg (p : Path) : String :=
  "Destination path " ++ pathStr p ++ " does not exist"

def dstCreatingMsg (p : Path) : String :=
  "Creating destination path " ++ pathStr p

/-- The inner `for sub_entry in os.scandir(entry.path)` loop of
`DashcamBackup.run`: regular files are copied into
`next_destination_sub_directory`; anything else only yields the verbose
depth note.  `cs` is the `scandir` snapshot of `entry.path`. -/
def processSubEntries (b : DashcamBackup) (srcEntryPath nextDest : Path) :
    Entries → St → Option St
  | .nil, st => some st
  | .cons n c rest, st =>
      match c with
      | .file _ =>
          match shutilCopy st.fs (srcEntryPath ++ [n]) nextDest with
          | some fs2 => processSubEntries b srcEntryPath nextDest rest ⟨fs2, st.out⟩
          | none => none
      | _ =>
          processSubEntries b srcEntryPath nextDest rest
            ⟨st.fs, st.out ++ (if b.verbose then [depthMsg (srcEntryPath ++ [n])] else [])⟩

/-- The body of the `for entry in os.scandir(source_path)` loop of
`DashcamBackup.run`, for one entry, excluding the trailing counter
increment and `Copying ...` print.  Mirrors the Python exactly: the
`else` of the unknown-entry note is attached to the `is_dir` check, so it
also fires for regular files. -/
def processEntry (b : DashcamBackup) (sourcePath destinationPath : Path)
    (st : St) (n : String) (c : Entry) : Option St :=
  let step1 : Option St :=
    match c with
    | .file _ =>
        match shutilCopy st.fs (sourcePath ++ [n]) destinationPath with
        | some fs2 => some ⟨fs2, st.out⟩
        | none => none
    | _ => some st
  match step1 with
  | none => none
  | some st1 =>
      match c with
      | .dir cs =>
          let nextDest := destinationPath ++ [n]
          let st2? : Option St :=
            if (Entry.lookup st1.fs nextDest).isSome then some st1
            else
              match mkdirRaw st1.fs nextDest with
              | some fs2 => some ⟨fs2, st1.out⟩
              | none => none
          match st2? with
          | none => none
          | some st2 => processSubEntries b (sourcePath ++ [n]) nextDest cs st2
      | _ =>
          some ⟨st1.fs,
                st1.out ++ (if b.verbose then [unknownMsg (sourcePath ++ [n])] else [])⟩

/-- The `for entry in os.scandir(source_path)` loop of `DashcamBackup.run`,
threading `number_of_entries_copied` (which the Python code increments for
every entry, copied or not). -/
def processEntries (b : DashcamBackup) (sourcePath destinationPath : Path) :
    Entries → Nat → St → Option (Nat × St)
  | .nil, count, st => some (count, st)
  | .cons n c rest, count, st =>
      match processEntry b sourcePath destinationPath st n c with
      | none => none
      | some st1 =>
          processEntries b sourcePath destinationPath rest (count + 1)
            ⟨st1.fs,
             st1.out ++ (if b.verbose then [copyingMsg (sourcePath ++ [n]) destinationPath] else [])⟩

/-- One iteration of the outer `for sub_directory in self.__sub_directories()`
loop of `DashcamBackup.run`. -/
def processSubdir (b : DashcamBackup) (st : St) (sub : String) : Option St :=
  let sourcePath := b.source ++ [rootDirectory, sub]
  let destinationPath := b.destination ++ [rootDirectory, sub]
  match makeDirectoryIfNotExist st sourcePath (srcNotExistMsg sourcePath)
      (srcCreatingMsg sourcePath) with
  | none => none
  | some st1 =>
      match makeDirectoryIfNotExist st1 destinationPath (dstNotExistMsg destinationPath)
          (dstCreatingMsg destinationPath) with
      | none => none
      | some st2 =>
          let st3 : St := ⟨st2.fs,
            st2.out ++ (if b.verbose then
              ["Processing " ++ sub ++ " from " ++ pathStr b.source ++ " to " ++
                pathStr b.destination] else [])⟩
          match Entry.lookup st3.fs sourcePath with
          | some (.dir cs) =>
              match processEntries b sourcePath destinationPath cs 0 st3 with
              | none => none
              | some (n, st4) =>
                  some ⟨st4.fs,
                    st4.out ++ (if b.verbose then
                      [processedMsg n sourcePath destinationPath] else [])⟩
          | _ => none

/-- The outer loop of `DashcamBackup.run` over the fixed subdirectory list. -/
def runSubdirs (b : DashcamBackup) : List String → St → Option St
  | [], st => some st
  | s :: rest, st =>
      match processSubdir b st s with
      | none => none
      | some st1 => runSubdirs b rest st1

/-- `DashcamBackup.run`. -/
def DashcamBackup.run (b : DashcamBackup) (fs : Entry) : Option St :=
  runSubdirs b subDirectories
    ⟨fs, if b.verbose then
      ["Backing up from " ++ pathStr b.source ++ " to " ++ pathStr b.destination]
     else []⟩

/-- The `log_prefix` of `DashcamBackup.__list_contents`: two spaces per level. -/
def indent : Nat → String
  | 0 => ""
  | n + 1 => "  " ++ indent n

def listingHeader (loc : Path) (lvl : Nat) : String :=
  "\n" ++ indent lvl ++ "Listing contents of " ++ pathStr loc ++ "\n"

mutual

/-- The per-entry part of `DashcamBackup.__list_contents`: print file lines
only for names ending in `.mp4`, print directory lines and recurse one
level deeper. -/
def Entry.listLines : Entry → String → Path → Nat → List String
  | .file _, n, _, lvl =>
      if strEndsWith n ".mp4" then [indent lvl ++ n ++ " (File)"] else []
  | .dir cs, n, loc, lvl =>
      (indent lvl ++ n ++ " (Directory)") ::
        listingHeader (loc ++ [n]) (lvl + 1) ::
          Entries.listLines cs (loc ++ [n]) (lvl + 1)
  | .other, _, _, _ => []

/-- The `for entry in os.scandir(location)` loop of
`DashcamBackup.__list_contents`. -/
def Entries.listLines : Entries → Path → Nat → List String
  | .nil, _, _ => []
  | .cons n c rest, loc, lvl =>
      Entry.listLines c n loc lvl ++ Entries.listLines rest loc lvl

end

/-- `DashcamBackup.__list_contents(location, level)`: fails
(`FileNotFoundError`/`NotADirectoryError` from `os.scandir`) when the
location is not an existing directory. -/
def listLocation (fs : Entry) (loc : Path) (lvl : Nat) : Option (List String) :=
  match Entry.lookup fs loc with
  | some (.dir cs) => some (listingHeader loc lvl :: Entries.listLines cs loc lvl)
  | _ => none

/-- The loop of `DashcamBackup.list_contents` over the fixed subdirectories. -/
def listContentsSubdirs (b : DashcamBackup) (fs : Entry) :
    List String → Option (List String)
  | [] => some []
  | s :: rest =>
      match listLocation fs (b.source ++ [rootDirectory, s]) 1 with
      | none => none
      | some out1 =>
          match listContentsSubdirs b fs rest with
          | none => none
          | some out2 => some (out1 ++ out2)

/-- `DashcamBackup.list_contents`.  It only reads the filesystem (the
tree is an input, never returned), so listing copies nothing. -/
def DashcamBackup.listContents (b : DashcamBackup) (fs : Entry) : Option (List String) :=
  listContentsSubdirs b fs subDirectories

/-- The parsed command-line arguments of the `__main__` block. -/
structure Args where
  listOnly : Bool
  destination : Option Path
  verbose : Bool

/-- The `match platform.system()` statement: the resolved mount root
together with the lines it prints.  On `Windows` and unknown systems the
local variable `system_mount` is only annotated, never assigned. -/
def matchPlatform (s : String) : Option Path × List String :=
  if s = "Linux" then (some ["mnt"], [])
  else if s = "Darwin" then (some ["Volumes"], [])
  else if s = "Windows" then (none, ["Running on Windows, not supported."])
  else (none, ["Running on an unknown system, not supported."])

/-- The list comprehension over `system_path.iterdir()`: immediate children
that are directories and whose name starts with the fixed token. -/
def sourceDirectoriesOf : Entries → List String
  | .nil => []
  | .cons n c rest =>
      (if isDirE c && strStartsWith n driveNameStart then [n] else []) ++
        sourceDirectoriesOf rest

/-- Volume discovery: `Path(system_mount).iterdir()` filtered as in the
script.  Read-only: the filesystem is only an input.  Raises
(`FileNotFoundError`/`NotADirectoryError`) when the mount root is not an
existing directory. -/
def sourceDirectories (fs : Entry) (systemPath : Path) : Option (List String) :=
  match Entry.lookup fs systemPath with
  | some (.dir cs) => some (sourceDirectoriesOf cs)
  | _ => none

/-- The `for source_directory in source_directories` loop of `__main__`. -/
def runJobs (args : Args) (dest : Path) (systemMount : Path) :
    List String → St → Option St
  | [], st => some st
  | n :: rest, st =>
      let absolute := systemMount ++ [n]
      let b : DashcamBackup := ⟨absolute, dest, args.verbose⟩
      let out1 := st.out ++
        ["Checking directory: " ++ pathStr absolute,
         "Directory: " ++ pathStr absolute ++ " is a Tesla Drive",
         "Destination: " ++ pathStr dest ++ " is the backup destination"]
      if args.listOnly then
        match DashcamBackup.listContents b st.fs with
        | none => none
        | some lines => runJobs args dest systemMount rest ⟨st.fs, out1 ++ lines⟩
      else
        match DashcamBackup.run b st.fs with
        | none => none
        | some st2 => runJobs args dest systemMount rest ⟨st2.fs, out1 ++ st2.out⟩

/-- The observable outcome of one program invocation. -/
structure MainResult where
  out : List String
  exitCode : Nat
  fs : Entry

/-- The `__main__` block.  The destination is validated before the platform
match; on unsupported platforms the unassigned `system_mount` makes the
`if system_mount is None` line raise `NameError`, so the interpreter
exits with status 1 after the `not supported` report, before any volume
discovery (the intended `System mount is not set, exiting.` print is
unreachable).  Crashes occurring after the mount root is resolved (a
missing mount root, or an I/O error inside a job) are left as `none`. -/
def mainProgram (args : Args) (platformSystem : String) (fs : Entry) :
    Option MainResult :=
  match args.destination with
  | none => some ⟨["Destination is required"], 1, fs⟩
  | some dest =>
      if (Entry.lookup fs dest).isSome then
        match matchPlatform platformSystem with
        | (none, msgs) => some ⟨msgs, 1, fs⟩
        | (some systemMount, msgs) =>
            let out0 := msgs ++ ["System mount is set to " ++ pathStr systemMount]
            match sourceDirectories fs systemMount with
            | none => none
            | some names =>
                match runJobs args dest systemMount names ⟨fs, out0⟩ with
                | none => none
                | some st => some ⟨st.out, 0, st.fs⟩
      else
        some ⟨["Destination " ++ pathStr dest ++ " does not exist"], 1, fs⟩

/-- Projection used to state membership of a diagnostic in the output of a
possibly-failing run. -/
def outOf : Option St → List String
  | none => []
  | some st => st.out

/-! ### Concrete filesystem trees used by witnesses and counterexamples -/

/-- A `RecentClips` population with a plain clip, a non-clip file and a
nested directory holding a clip. -/
def recentClipsT : Entries :=
  .cons "a.mp4" (.file [1])
    (.cons "b.txt" (.file [2])
      (.cons "c" (.dir (.cons "d.mp4" (.file [3]) .nil)) .nil))

def teslaCamT : Entries :=
  .cons "RecentClips" (.dir recentClipsT)
    (.cons "SavedClips" (.dir .nil)
      (.cons "SentryClips" (.dir .nil) .nil))

/-- Source volume `src` with the tree above; destination `dst` holding an
empty `TeslaCam` folder. -/
def fsT : Entry :=
  .dir (.cons "src" (.dir (.cons "TeslaCam" (.dir teslaCamT) .nil))
    (.cons "dst" (.dir (.cons "TeslaCam" (.dir .nil) .nil)) .nil))

def bVerboseT : DashcamBackup := ⟨["src"], ["dst"], true⟩

def bQuietT : DashcamBackup := ⟨["src"], ["dst"], false⟩

/-- Source with a nested directory `d` holding `m.mp4`, while the
destination already holds a regular *file* named `d` at the matching
place. -/
def fsClashT : Entry :=
  .dir (.cons "src"
          (.dir (.cons "TeslaCam"
            (.dir (.cons "RecentClips"
                     (.dir (.cons "d" (.dir (.cons "m.mp4" (.file [7]) .nil)) .nil))
                   (.cons "SavedClips" (.dir .nil)
                     (.cons "SentryClips" (.dir .nil) .nil)))) .nil))
    (.cons "dst"
          (.dir (.cons "TeslaCam"
            (.dir (.cons "RecentClips" (.dir (.cons "d" (.file [9]) .nil)) .nil)) .nil))
      .nil))

/-- Filesystem with just a destination directory (used for `__main__`
level witnesses). -/
def fsDstOnlyT : Entry := .dir (.cons "dst" (.dir .nil) .nil)

/-- A mount root holding one matching source volume, one non-matching
directory and a stray file. -/
def mntT : Entries :=
  .cons "TESLADRIVE1" (.dir .nil)
    (.cons "OTHERDISK" (.dir .nil)
      (.cons "TESLADRIVE.log" (.file [4]) .nil))

def fsMntT : Entry := .dir (.cons "mnt" (.dir mntT) .nil)

/-- The shapes of lines `DashcamBackup.__list_contents` can print: a
listing header, a directory line, or a file line whose name ends in the
clip extension. -/
def goodLine (line : String) : Prop :=
  (∃ loc lvl, line = listingHeader loc lvl) ∨
  (∃ lvl n, line = indent lvl ++ n ++ " (Directory)") ∨
  (∃ lvl n, strEndsWith n ".mp4" = true ∧ line = indent lvl ++ n ++ " (File)")

/-- Source nested directory `d` holding one clip, for the entry-level
clash counterexample: the destination holds a regular file named `d`. -/
def peClashChildrenT : Entries := .cons "m.mp4" (.file [5]) .nil

def fsPeClashT : Entry :=
  .dir (.cons "s" (.dir (.cons "d" (.dir peClashChildrenT) .nil))
    (.cons "t" (.dir (.cons "d" (.file [9]) .nil)) .nil))

/-- Source nested directory with one clip and one deeper directory, and
an empty destination, for the entry-level witness. -/
def peGoodChildrenT : Entries :=
  .cons "m.mp4" (.file [5]) (.cons "deep" (.dir .nil) .nil)

def fsPeGoodT : Entry :=
  .dir (.cons "s" (.dir (.cons "d" (.dir peGoodChildrenT) .nil))
    (.cons "t" (.dir .nil) .nil))

def bPeT : DashcamBackup := ⟨["s"], ["t"], true⟩

/-- Source and destination volumes holding only empty `TeslaCam` roots:
every clip subdirectory is missing. -/
def fsEmptyRootsT : Entry :=
  .dir (.cons "src" (.dir (.cons "TeslaCam" (.dir .nil) .nil))
    (.cons "dst" (.dir (.cons "TeslaCam" (.dir .nil) .nil)) .nil))

/-! ### Path and tree lemmas -/

/-- Induction along the spine of a children list (the inner entries are
not recursed into). -/
theorem Entries.spineInduction {motive : Entries → Prop} (h0 : motive .nil)
    (h1 : ∀ n c rest, motive rest → motive (.cons n c rest)) :
    ∀ cs : Entries, motive cs
  | .nil => h0
  | .cons n c rest => h1 n c rest (Entries.spineInduction h0 h1 rest)

theorem leadsInto_refl (p : Path) : leadsInto p p = true := by
  induction p with
  | nil => rfl
  | cons a p ih => simp [leadsInto, ih]

theorem leadsInto_append (p r : Path) : leadsInto p (p ++ r) = true := by
  induction p with
  | nil => rfl
  | cons a p ih => simp [leadsInto, ih]

theorem leadsInto_exists_rest {p q : Path} (h : leadsInto p q = true) :
    ∃ r, q = p ++ r := by
  induction p generalizing q with
  | nil => exact ⟨q, rfl⟩
  | cons a p ih =>
    cases q with
    | nil => simp [leadsInto] at h
    | cons b q =>
      by_cases hab : a = b
      · subst hab
        simp [leadsInto] at h
        obtain ⟨r, hr⟩ := ih h
        exact ⟨r, by simp [hr]⟩
      · simp [leadsInto, hab] at h

theorem leadsInto_trans {a b c : Path} (h1 : leadsInto a b = true)
    (h2 : leadsInto b c = true) : leadsInto a c = true := by
  induction a generalizing b c with
  | nil => rfl
  | cons x a ih =>
    cases b with
    | nil => simp [leadsInto] at h1
    | cons y b =>
      cases c with
      | nil => simp [leadsInto] at h2
      | cons z c =>
        by_cases hxy : x = y
        · subst hxy
          simp [leadsInto] at h1
          by_cases hyz : x = z
          · subst hyz
            simp [leadsInto] at h2 ⊢
            exact ih h1 h2
          · simp [leadsInto, hyz] at h2
        · simp [leadsInto, hxy] at h1

theorem leadsInto_append_of_incomp {a b : Path} (x y : Path)
    (h1 : leadsInto a b = false) (h2 : leadsInto b a = false) :
    leadsInto (a ++ x) (b ++ y) = false := by
  induction a generalizing b with
  | nil => simp [leadsInto] at h1
  | cons u a ih =>
    cases b with
    | nil => simp [leadsInto] at h2
    | cons v b =>
      by_cases huv : u = v
      · subst huv
        simp [leadsInto] at h1 h2 ⊢
        exact ih h1 h2
      · simp [List.cons_append, leadsInto, huv]

theorem leadsInto_snoc_ne {q : Path} {a b : String} (h : a ≠ b) :
    leadsInto (q ++ [a]) (q ++ [b]) = false := by
  induction q with
  | nil => simp [leadsInto, h]
  | cons u q ih => simp [leadsInto, ih]

theorem leadsInto_append_cons_ne {q : Path} {a b : String} (r s : Path)
    (h : a ≠ b) : leadsInto (q ++ a :: r) (q ++ b :: s) = false := by
  have h1 := leadsInto_snoc_ne (q := q) h
  have h2 := leadsInto_snoc_ne (q := q) (Ne.symm h)
  have h3 := leadsInto_append_of_incomp r s h1 h2
  simpa using h3

theorem leadsInto_comparable {a b c : Path} (h1 : leadsInto a c = true)
    (h2 : leadsInto b c = true) :
    leadsInto a b = true ∨ leadsInto b a = true := by
  induction a generalizing b c with
  | nil => exact Or.inl rfl
  | cons x a ih =>
    cases b with
    | nil => exact Or.inr rfl
    | cons y b =>
      cases c with
      | nil => simp [leadsInto] at h1
      | cons z c =>
        by_cases hxz : x = z
        · subst hxz
          simp [leadsInto] at h1
          by_cases hyx : y = x
          · subst hyx
            simp [leadsInto] at h2 ⊢
            exact ih h1 h2
          · simp [leadsInto, hyx] at h2
        · simp [leadsInto, hxz] at h1

theorem findChild_setChild_self (cs : Entries) (n : String) (v : Entry) :
    findChild (setChild cs n v) n = some v := by
  induction cs using Entries.spineInduction with
  | h0 => simp [setChild, findChild]
  | h1 m c rest ih =>
    by_cases h : m = n
    · subst h
      simp [setChild, findChild]
    · simp [setChild, findChild, h, ih]

theorem findChild_setChild_ne (cs : Entries) {n m : String} (v : Entry)
    (h : n ≠ m) : findChild (setChild cs n v) m = findChild cs m := by
  induction cs using Entries.spineInduction with
  | h0 => simp [setChild, findChild, h]
  | h1 k c rest ih =>
    by_cases hk : k = n
    · subst hk
      simp [setChild, findChild, h, ih]
    · simp [setChild, findChild, hk, ih]

theorem Entry.lookup_append (fs : Entry) (p q : Path) :
    Entry.lookup fs (p ++ q) = (Entry.lookup fs p).bind (fun e => Entry.lookup e q) := by
  induction p generalizing fs with
  | nil => simp [Entry.lookup]
  | cons n p ih =>
    cases fs with
    | file c => simp [Entry.lookup]
    | other => simp [Entry.lookup]
    | dir cs =>
      simp only [List.cons_append, Entry.lookup]
      cases findChild cs n with
      | none => simp
      | some c => simp [ih]

theorem lookup_none_append {fs : Entry} {p : Path} (q : Path)
    (h : Entry.lookup fs p = none) : Entry.lookup fs (p ++ q) = none := by
  simp [Entry.lookup_append, h]

theorem lookup_isSome_of_lead {fs : Entry} {p q : Path} {e : Entry}
    (h : Entry.lookup fs q = some e) (hl : leadsInto p q = true) :
    (Entry.lookup fs p).isSome = true := by
  obtain ⟨r, hr⟩ := leadsInto_exists_rest hl
  subst hr
  rw [Entry.lookup_append] at h
  cases hfp : Entry.lookup fs p with
  | none => rw [hfp] at h; simp at h
  | some x => rfl

/-- Shape of a successful non-root write into a directory node. -/
theorem setAt_cons_shape {cs : Entries} {a : String} {t : Path} {v fs' : Entry}
    (h : Entry.setAt (.dir cs) (a :: t) v = some fs') :
    ∃ x, fs' = .dir (setChild cs a x) ∧
      ((t = [] ∧ x = v) ∨
        (∃ c, findChild cs a = some c ∧ Entry.setAt c t v = some x)) := by
  cases t with
  | nil =>
    simp [Entry.setAt] at h
    exact ⟨v, h.symm, Or.inl ⟨rfl, rfl⟩⟩
  | cons m t' =>
    simp only [Entry.setAt] at h
    cases hfc : findChild cs a with
    | none => rw [hfc] at h; simp at h
    | some c =>
      rw [hfc] at h
      simp only [] at h
      cases hsa : Entry.setAt c (m :: t') v with
      | none => rw [hsa] at h; simp at h
      | some c2 =>
        rw [hsa] at h
        simp at h
        exact ⟨c2, h.symm, Or.inr ⟨c, rfl, hsa⟩⟩

theorem setAt_lookup_self {fs fs' v : Entry} (t : Path)
    (h : Entry.setAt fs t v = some fs') : Entry.lookup fs' t = some v := by
  induction t generalizing fs fs' with
  | nil =>
    simp [Entry.setAt] at h
    subst h
    simp [Entry.lookup]
  | cons n t ih =>
    cases fs with
    | file c => simp [Entry.setAt] at h
    | other => simp [Entry.setAt] at h
    | dir cs =>
      obtain ⟨x, rfl, hx⟩ := setAt_cons_shape h
      rcases hx with ⟨rfl, rfl⟩ | ⟨c, hfc, hsa⟩
      · simp [Entry.lookup, findChild_setChild_self]
      · simp [Entry.lookup, findChild_setChild_self]
        exact ih hsa

/-- A write at `t` leaves the value at any path diverging from `t`
unchanged. -/
theorem setAt_lookup_diverge {fs fs' v : Entry} (t p : Path)
    (h : Entry.setAt fs t v = some fs')
    (h1 : leadsInto t p = false) (h2 : leadsInto p t = false) :
    Entry.lookup fs' p = Entry.lookup fs p := by
  induction t generalizing fs fs' p with
  | nil => simp [leadsInto] at h1
  | cons a t' ih =>
    cases fs with
    | file c => simp [Entry.setAt] at h
    | other => simp [Entry.setAt] at h
    | dir cs =>
      obtain ⟨x, rfl, hx⟩ := setAt_cons_shape h
      cases p with
      | nil => simp [leadsInto] at h2
      | cons b p' =>
        by_cases hab : a = b
        · subst hab
          simp [leadsInto] at h1 h2
          rcases hx with ⟨rfl, rfl⟩ | ⟨c, hfc, hsa⟩
          · simp [leadsInto] at h1
          · simp [Entry.lookup, findChild_setChild_self, hfc]
            exact ih p' hsa h1 h2
        · rcases hx with ⟨rfl, rfl⟩ | ⟨c, hfc, hsa⟩ <;>
            simp [Entry.lookup, findChild_setChild_ne _ _ hab]

/-- A write strictly below an existing regular file fails. -/
theorem setAt_none_of_file_below {fs : Entry} {p : Path} {c : List Nat}
    (t : Path) (v : Entry)
    (hf : Entry.lookup fs p = some (.file c))
    (hl : leadsInto p t = true) (hne : p ≠ t) :
    Entry.setAt fs t v = none := by
  induction p generalizing fs t with
  | nil =>
    simp [Entry.lookup] at hf
    subst hf
    cases t with
    | nil => exact absurd rfl hne
    | cons a t' => rfl
  | cons b p' ih =>
    cases fs with
    | file cc => simp [Entry.lookup] at hf
    | other => simp [Entry.lookup] at hf
    | dir cs =>
      cases t with
      | nil => simp [leadsInto] at hl
      | cons a t' =>
        by_cases hba : b = a
        · subst hba
          simp [leadsInto] at hl
          simp only [Entry.lookup] at hf
          cases hfc : findChild cs b with
          | none => rw [hfc] at hf; simp at hf
          | some child =>
            rw [hfc] at hf
            simp at hf
            have hne' : p' ≠ t' := fun he => hne (by rw [he])
            have htail := ih t' hf hl hne'
            cases t' with
            | nil =>
              cases p' with
              | nil => exact absurd rfl hne'
              | cons u p'' => simp [leadsInto] at hl
            | cons m t'' =>
              simp only [Entry.setAt, hfc, htail]
              rfl
        · simp [leadsInto, hba] at hl

/-- A write strictly below an existing directory keeps it a directory. -/
theorem setAt_dir_above {fs fs' v : Entry} {p : Path} {cs0 : Entries}
    (t : Path)
    (hd : Entry.lookup fs p = some (.dir cs0))
    (h : Entry.setAt fs t v = some fs')
    (hl : leadsInto p t = true) (hne : p ≠ t) :
    ∃ cs1, Entry.lookup fs' p = some (.dir cs1) := by
  induction p generalizing fs fs' t cs0 with
  | nil =>
    simp [Entry.lookup] at hd
    subst hd
    cases t with
    | nil => exact absurd rfl hne
    | cons a t' =>
      obtain ⟨x, rfl, _⟩ := setAt_cons_shape h
      exact ⟨_, rfl⟩
  | cons b p' ih =>
    cases fs with
    | file cc => simp [Entry.lookup] at hd
    | other => simp [Entry.lookup] at hd
    | dir cs =>
      cases t with
      | nil => simp [leadsInto] at hl
      | cons a t' =>
        by_cases hba : b = a
        · subst hba
          simp [leadsInto] at hl
          simp only [Entry.lookup] at hd
          cases hfc : findChild cs b with
          | none => rw [hfc] at hd; simp at hd
          | some child =>
            rw [hfc] at hd
            simp at hd
            have hne' : p' ≠ t' := fun he => hne (by rw [he])
            obtain ⟨x, rfl, hx⟩ := setAt_cons_shape h
            rcases hx with ⟨rfl, rfl⟩ | ⟨c, hfc2, hsa⟩
            · cases p' with
              | nil => exact absurd rfl hne'
              | cons u p'' => simp [leadsInto] at hl
            · rw [hfc] at hfc2
              cases hfc2
              obtain ⟨cs1, hcs1⟩ := ih t' hd hsa hl hne'
              refine ⟨cs1, ?_⟩
              simp [Entry.lookup, findChild_setChild_self, hcs1]
        · simp [leadsInto, hba] at hl

/-- Writing one level below an existing directory succeeds. -/
theorem setAt_some_of_parent_dir {fs : Entry} {cs : Entries}
    (par : Path) (n : String) (v : Entry)
    (hp : Entry.lookup fs par = some (.dir cs)) :
    ∃ fs', Entry.setAt fs (par ++ [n]) v = some fs' := by
  induction par generalizing fs cs with
  | nil =>
    simp [Entry.lookup] at hp
    subst hp
    exact ⟨.dir (setChild cs n v), rfl⟩
  | cons a par' ih =>
    cases fs with
    | file cc => simp [Entry.lookup] at hp
    | other => simp [Entry.lookup] at hp
    | dir cs0 =>
      simp only [Entry.lookup] at hp
      cases hfc : findChild cs0 a with
      | none => rw [hfc] at hp; simp at hp
      | some child =>
        rw [hfc] at hp
        simp at hp
        obtain ⟨c2, hc2⟩ := ih hp
        refine ⟨.dir (setChild cs0 a c2), ?_⟩
        cases hpe : par' ++ [n] with
        | nil => simp at hpe
        | cons m rest =>
          rw [hpe] at hc2
          rw [List.cons_append, hpe]
          simp only [Entry.setAt, hfc, hc2]
          rfl

/-! ### Lemmas about the modelled OS operations -/

theorem lookup_dirnil_cons (m : String) (r : Path) :
    Entry.lookup (.dir .nil) (m :: r) = none := by
  simp [Entry.lookup, findChild]

theorem ne_append_singleton (p : Path) (n : String) : p ≠ p ++ [n] := by
  intro h
  have := congrArg List.length h
  simp at this

theorem getLast?_append_singleton (l : List String) (a : String) :
    (l ++ [a]).getLast? = some a := by
  induction l with
  | nil => rfl
  | cons x l ih =>
    rw [List.cons_append, List.getLast?_cons]
    simp [ih]

theorem mkdirRaw_inv {fs fs' : Entry} {p : Path} (h : mkdirRaw fs p = some fs') :
    Entry.lookup fs p = none ∧ (∃ cs, Entry.lookup fs p.dropLast = some (.dir cs)) ∧
      Entry.setAt fs p (.dir .nil) = some fs' := by
  unfold mkdirRaw at h
  split at h
  · simp at h
  · split at h
    · simp at h
    · rename_i hsome
      have hnone : Entry.lookup fs p = none := by
        cases hl : Entry.lookup fs p with
        | none => rfl
        | some e => rw [hl] at hsome; simp at hsome
      split at h
      · rename_i cs heq
        exact ⟨hnone, ⟨cs, heq⟩, h⟩
      · simp at h

theorem mkdirRaw_creates {fs fs' : Entry} {p : Path} (h : mkdirRaw fs p = some fs') :
    Entry.lookup fs' p = some (.dir .nil) :=
  setAt_lookup_self p (mkdirRaw_inv h).2.2

theorem mkdirRaw_lookup_diverge {fs fs' : Entry} {t p : Path}
    (h : mkdirRaw fs t = some fs')
    (h1 : leadsInto t p = false) (h2 : leadsInto p t = false) :
    Entry.lookup fs' p = Entry.lookup fs p :=
  setAt_lookup_diverge t p (mkdirRaw_inv h).2.2 h1 h2

theorem mkdirRaw_keeps_file {fs fs' : Entry} {t p : Path} {c : List Nat}
    (h : mkdirRaw fs t = some fs')
    (hf : Entry.lookup fs p = some (.file c)) :
    Entry.lookup fs' p = some (.file c) := by
  obtain ⟨hnone, _, hset⟩ := mkdirRaw_inv h
  have htp : leadsInto t p = false := by
    cases htp : leadsInto t p with
    | false => rfl
    | true =>
      have := lookup_isSome_of_lead hf htp
      rw [hnone] at this
      simp at this
  have hpt : leadsInto p t = false := by
    cases hpt : leadsInto p t with
    | false => rfl
    | true =>
      have hne : p ≠ t := by
        intro he
        rw [he, hnone] at hf
        exact Option.noConfusion hf
      rw [setAt_none_of_file_below t (.dir .nil) hf hpt hne] at hset
      exact Option.noConfusion hset
  rw [setAt_lookup_diverge t p hset htp hpt]
  exact hf

theorem mkdirRaw_keeps_dir_above {fs fs' : Entry} {t q : Path} {cs0 : Entries}
    (h : mkdirRaw fs t = some fs')
    (hd : Entry.lookup fs q = some (.dir cs0))
    (hl : leadsInto q t = true) (hne : q ≠ t) :
    ∃ cs1, Entry.lookup fs' q = some (.dir cs1) :=
  setAt_dir_above t hd (mkdirRaw_inv h).2.2 hl hne

theorem shutilCopy_inv {fs fs' : Entry} {src dst : Path}
    (h : shutilCopy fs src dst = some fs') :
    ∃ c, Entry.lookup fs src = some (.file c) ∧
      ∃ t, ((t = dst ∧ (Entry.lookup fs dst = none ∨
              ∃ cc, Entry.lookup fs dst = some (.file cc))) ∨
            (∃ n cs0, src.getLast? = some n ∧ t = dst ++ [n] ∧
              Entry.lookup fs dst = some (.dir cs0) ∧
              ∀ cs1, Entry.lookup fs (dst ++ [n]) ≠ some (.dir cs1))) ∧
        Entry.setAt fs t (.file c) = some fs' := by
  unfold shutilCopy at h
  split at h
  · rename_i c heq
    split at h
    · rename_i cs heq2
      split at h
      · rename_i n heqL
        split at h
        · simp at h
        · rename_i hnotdir
          refine ⟨c, heq, dst ++ [n], Or.inr ⟨n, cs, heqL, rfl, heq2, ?_⟩, h⟩
          intro cs1 hcontra
          exact hnotdir cs1 hcontra
      · simp at h
    · rename_i cc heq2
      exact ⟨c, heq, dst, Or.inl ⟨rfl, Or.inr ⟨cc, heq2⟩⟩, h⟩
    · simp at h
    · rename_i heq2
      exact ⟨c, heq, dst, Or.inl ⟨rfl, Or.inl heq2⟩, h⟩
  · simp at h

theorem leadsInto_dst_target {fs : Entry} {src dst t : Path}
    (ht : (t = dst ∧ (Entry.lookup fs dst = none ∨
            ∃ cc, Entry.lookup fs dst = some (.file cc))) ∨
          (∃ n cs0, src.getLast? = some n ∧ t = dst ++ [n] ∧
            Entry.lookup fs dst = some (.dir cs0) ∧
            ∀ cs1, Entry.lookup fs (dst ++ [n]) ≠ some (.dir cs1))) :
    leadsInto dst t = true := by
  cases ht with
  | inl hh => rw [hh.1]; exact leadsInto_refl dst
  | inr hh =>
    obtain ⟨n, cs0, _, hteq, _, _⟩ := hh
    rw [hteq]
    exact leadsInto_append dst [n]

theorem shutilCopy_lookup_diverge {fs fs' : Entry} {src dst : Path} (p : Path)
    (h : shutilCopy fs src dst = some fs')
    (h1 : leadsInto dst p = false) (h2 : leadsInto p dst = false) :
    Entry.lookup fs' p = Entry.lookup fs p := by
  obtain ⟨c, _, t, ht, hset⟩ := shutilCopy_inv h
  have hdt : leadsInto dst t = true := leadsInto_dst_target ht
  have htp : leadsInto t p = false := by
    cases htp : leadsInto t p with
    | false => rfl
    | true => rw [leadsInto_trans hdt htp] at h1; exact Bool.noConfusion h1
  have hpt : leadsInto p t = false := by
    cases hpt : leadsInto p t with
    | false => rfl
    | true =>
      rcases leadsInto_comparable hpt hdt with hc | hc
      · rw [hc] at h2; exact Bool.noConfusion h2
      · rw [hc] at h1; exact Bool.noConfusion h1
  exact setAt_lookup_diverge t p hset htp hpt

theorem shutilCopy_keeps_file {fs fs' : Entry} {src dst p : Path} {c0 : List Nat}
    (h : shutilCopy fs src dst = some fs')
    (hf : Entry.lookup fs p = some (.file c0))
    (h1 : leadsInto dst p = false) :
    Entry.lookup fs' p = some (.file c0) := by
  obtain ⟨c, _, t, ht, hset⟩ := shutilCopy_inv h
  have hdt : leadsInto dst t = true := leadsInto_dst_target ht
  have htp : leadsInto t p = false := by
    cases htp : leadsInto t p with
    | false => rfl
    | true => rw [leadsInto_trans hdt htp] at h1; exact Bool.noConfusion h1
  have hpt : leadsInto p t = false := by
    cases hpt : leadsInto p t with
    | false => rfl
    | true =>
      by_cases hpe : p = t
      · subst hpe
        rw [hdt] at h1
        exact Bool.noConfusion h1
      · rw [setAt_none_of_file_below t (.file c) hf hpt hpe] at hset
        exact Option.noConfusion hset
  rw [setAt_lookup_diverge t p hset htp hpt]
  exact hf

theorem shutilCopy_keeps_dir_self {fs fs' : Entry} {src dst : Path} {cs : Entries}
    (h : shutilCopy fs src dst = some fs')
    (hd : Entry.lookup fs dst = some (.dir cs)) :
    ∃ cs1, Entry.lookup fs' dst = some (.dir cs1) := by
  obtain ⟨c, _, t, ht, hset⟩ := shutilCopy_inv h
  cases ht with
  | inl hh =>
    rcases hh.2 with hn | ⟨cc, hf⟩
    · rw [hd] at hn; exact Option.noConfusion hn
    · rw [hd] at hf; exact Entry.noConfusion (Option.some.inj hf)
  | inr hh =>
    obtain ⟨n, cs0, _, hteq, _, _⟩ := hh
    rw [hteq] at hset
    exact setAt_dir_above (dst ++ [n]) hd hset (leadsInto_append dst [n])
      (ne_append_singleton dst n)

theorem shutilCopy_writes {fs fs' : Entry} {src dst : Path} {cs : Entries}
    {n : String} {c : List Nat}
    (h : shutilCopy fs src dst = some fs')
    (hd : Entry.lookup fs dst = some (.dir cs))
    (hn : src.getLast? = some n)
    (hsrc : Entry.lookup fs src = some (.file c)) :
    Entry.lookup fs' (dst ++ [n]) = some (.file c) := by
  obtain ⟨c', hsrc', t, ht, hset⟩ := shutilCopy_inv h
  rw [hsrc] at hsrc'
  cases Option.some.inj hsrc'
  cases ht with
  | inl hh =>
    rcases hh.2 with hn0 | ⟨cc, hf⟩
    · rw [hd] at hn0; exact Option.noConfusion hn0
    · rw [hd] at hf; exact Entry.noConfusion (Option.some.inj hf)
  | inr hh =>
    obtain ⟨n', cs0, hn', hteq, _, _⟩ := hh
    rw [hn] at hn'
    cases Option.some.inj hn'
    rw [hteq] at hset
    exact setAt_lookup_self _ hset

theorem makeDir_inv {st st' : St} {path : Path} {m1 m2 : String}
    (h : makeDirectoryIfNotExist st path m1 m2 = some st') :
    ((Entry.lookup st.fs path).isSome = true ∧ st' = st) ∨
    (Entry.lookup st.fs path = none ∧
      ∃ fs2, mkdirRaw st.fs path = some fs2 ∧ st' = ⟨fs2, st.out ++ [m1, m2]⟩) := by
  unfold makeDirectoryIfNotExist at h
  split at h
  · rename_i hsome
    exact Or.inl ⟨hsome, (Option.some.inj h).symm⟩
  · rename_i hsome
    have hnone : Entry.lookup st.fs path = none := by
      cases hl : Entry.lookup st.fs path with
      | none => rfl
      | some e => rw [hl] at hsome; simp at hsome
    split at h
    · rename_i fs2 heq
      exact Or.inr ⟨hnone, fs2, heq, (Option.some.inj h).symm⟩
    · simp at h

theorem makeDir_keeps_file {st st' : St} {path p : Path} {m1 m2 : String}
    {c : List Nat}
    (h : makeDirectoryIfNotExist st path m1 m2 = some st')
    (hf : Entry.lookup st.fs p = some (.file c)) :
    Entry.lookup st'.fs p = some (.file c) := by
  rcases makeDir_inv h with ⟨_, rfl⟩ | ⟨_, fs2, hmk, rfl⟩
  · exact hf
  · exact mkdirRaw_keeps_file hmk hf

theorem makeDir_lookup_diverge {st st' : St} {path : Path} {m1 m2 : String}
    (p : Path)
    (h : makeDirectoryIfNotExist st path m1 m2 = some st')
    (h1 : leadsInto path p = false) (h2 : leadsInto p path = false) :
    Entry.lookup st'.fs p = Entry.lookup st.fs p := by
  rcases makeDir_inv h with ⟨_, rfl⟩ | ⟨_, fs2, hmk, rfl⟩
  · rfl
  · exact mkdirRaw_lookup_diverge hmk h1 h2

theorem not_lead_extend {q qex p : Path} (hq : leadsInto q qex = true)
    (h1 : leadsInto q p = false) : leadsInto qex p = false := by
  cases hqp : leadsInto qex p with
  | false => rfl
  | true => rw [leadsInto_trans hq hqp] at h1; exact Bool.noConfusion h1

theorem diverge_of_extend {q qex p : Path} (hq : leadsInto q qex = true)
    (h1 : leadsInto q p = false) (h2 : leadsInto p q = false) :
    leadsInto qex p = false ∧ leadsInto p qex = false := by
  refine ⟨not_lead_extend hq h1, ?_⟩
  cases hpq : leadsInto p qex with
  | false => rfl
  | true =>
    rcases leadsInto_comparable hpq hq with hc | hc
    · rw [hc] at h2; exact Bool.noConfusion h2
    · rw [hc] at h1; exact Bool.noConfusion h1

theorem lookup_under_file {fs : Entry} {nd : Path} {c : List Nat} (m : String)
    (X : Path) (h : Entry.lookup fs nd = some (.file c)) :
    Entry.lookup fs (nd ++ m :: X) = none := by
  rw [Entry.lookup_append, h]
  simp [Entry.lookup]

theorem lookup_under_other {fs : Entry} {nd : Path} (m : String)
    (X : Path) (h : Entry.lookup fs nd = some .other) :
    Entry.lookup fs (nd ++ m :: X) = none := by
  rw [Entry.lookup_append, h]
  simp [Entry.lookup]

theorem isEmpty_append_singleton (l : List String) (a : String) :
    (l ++ [a]).isEmpty = false := by
  cases l <;> rfl

theorem mkdirRaw_none_of_parent_other {fs : Entry} {dstPath : Path} (k : String)
    (h : Entry.lookup fs dstPath = some .other) :
    mkdirRaw fs (dstPath ++ [k]) = none := by
  unfold mkdirRaw
  rw [isEmpty_append_singleton]
  rw [lookup_under_other k [] h]
  rw [List.dropLast_concat, h]
  rfl

theorem shutilCopy_keeps_deep {fs fs' : Entry} {src dst : Path} {k d : String}
    (X : Path) (h : shutilCopy fs src dst = some fs')
    (hk : src.getLast? = some k) (hne : k ≠ d) :
    Entry.lookup fs' (dst ++ d :: X) = Entry.lookup fs (dst ++ d :: X) := by
  obtain ⟨c, hsrc, t, ht, hset⟩ := shutilCopy_inv h
  cases ht with
  | inl hh =>
    have hbefore : Entry.lookup fs (dst ++ d :: X) = none := by
      rcases hh.2 with hn | ⟨cc, hf⟩
      · exact lookup_none_append _ hn
      · exact lookup_under_file d X hf
    have hd' : Entry.lookup fs' dst = some (.file c) := by
      rw [← hh.1]
      exact setAt_lookup_self t hset
    rw [hbefore, lookup_under_file d X hd']
  | inr hh =>
    obtain ⟨n, cs0, hn', hteq, _, _⟩ := hh
    rw [hk] at hn'
    cases Option.some.inj hn'
    rw [hteq] at hset
    exact setAt_lookup_diverge _ _ hset
      (leadsInto_append_cons_ne [] X hne)
      (leadsInto_append_cons_ne X [] (Ne.symm hne))

theorem shutilCopy_keeps_dir_above {fs fs' : Entry} {src dst q : Path}
    {cs0 : Entries} (h : shutilCopy fs src dst = some fs')
    (hd : Entry.lookup fs q = some (.dir cs0))
    (hq : leadsInto q dst = true) (hne : q ≠ dst) :
    ∃ cs1, Entry.lookup fs' q = some (.dir cs1) := by
  obtain ⟨c, hsrc, t, ht, hset⟩ := shutilCopy_inv h
  have hqt : leadsInto q t = true := leadsInto_trans hq (leadsInto_dst_target ht)
  have hne2 : q ≠ t := by
    cases ht with
    | inl hh => rw [hh.1]; exact hne
    | inr hh =>
      obtain ⟨n, cs1, _, hteq, _, _⟩ := hh
      rw [hteq]
      intro he
      obtain ⟨r, hr⟩ := leadsInto_exists_rest hq
      rw [he] at hr
      have := congrArg List.length hr
      simp at this
  exact setAt_dir_above t hd hset hqt hne2

/-! ### Lemmas about the inner nested-directory copy loop -/

theorem pse_lookup_diverge {b : DashcamBackup} {sp nd : Path} (cs : Entries)
    {st st' : St} (p : Path)
    (h : processSubEntries b sp nd cs st = some st')
    (h1 : leadsInto nd p = false) (h2 : leadsInto p nd = false) :
    Entry.lookup st'.fs p = Entry.lookup st.fs p := by
  induction cs using Entries.spineInduction generalizing st with
  | h0 =>
    simp [processSubEntries] at h
    rw [← h]
  | h1 n c rest ih =>
    cases c with
    | file cc =>
      simp only [processSubEntries] at h
      cases hsc : shutilCopy st.fs (sp ++ [n]) nd with
      | none => rw [hsc] at h; simp at h
      | some fs2 =>
        rw [hsc] at h
        simp only [] at h
        rw [ih h]
        exact shutilCopy_lookup_diverge p hsc h1 h2
    | dir cs2 =>
      simp only [processSubEntries] at h
      have hx := ih h
      exact hx
    | other =>
      simp only [processSubEntries] at h
      have hx := ih h
      exact hx

theorem pse_keeps_file {b : DashcamBackup} {sp nd : Path} (cs : Entries)
    {st st' : St} {p : Path} {c0 : List Nat}
    (h : processSubEntries b sp nd cs st = some st')
    (hf : Entry.lookup st.fs p = some (.file c0))
    (h1 : leadsInto nd p = false) :
    Entry.lookup st'.fs p = some (.file c0) := by
  induction cs using Entries.spineInduction generalizing st with
  | h0 =>
    simp [processSubEntries] at h
    rw [← h]
    exact hf
  | h1 n c rest ih =>
    cases c with
    | file cc =>
      simp only [processSubEntries] at h
      cases hsc : shutilCopy st.fs (sp ++ [n]) nd with
      | none => rw [hsc] at h; simp at h
      | some fs2 =>
        rw [hsc] at h
        simp only [] at h
        exact ih h (shutilCopy_keeps_file hsc hf h1)
    | dir cs2 =>
      simp only [processSubEntries] at h
      have hx := ih h hf
      exact hx
    | other =>
      simp only [processSubEntries] at h
      have hx := ih h hf
      exact hx

theorem pse_keeps_dir_above {b : DashcamBackup} {sp nd : Path} (cs : Entries)
    {st st' : St} {q : Path} {cs0 : Entries}
    (h : processSubEntries b sp nd cs st = some st')
    (hd : Entry.lookup st.fs q = some (.dir cs0))
    (hq : leadsInto q nd = true) (hne : q ≠ nd) :
    ∃ cs1, Entry.lookup st'.fs q = some (.dir cs1) := by
  induction cs using Entries.spineInduction generalizing st cs0 with
  | h0 =>
    simp [processSubEntries] at h
    rw [← h]
    exact ⟨cs0, hd⟩
  | h1 n c rest ih =>
    cases c with
    | file cc =>
      simp only [processSubEntries] at h
      cases hsc : shutilCopy st.fs (sp ++ [n]) nd with
      | none => rw [hsc] at h; simp at h
      | some fs2 =>
        rw [hsc] at h
        simp only [] at h
        obtain ⟨cs1, hd1⟩ := shutilCopy_keeps_dir_above hsc hd hq hne
        exact ih h hd1
    | dir cs2 =>
      simp only [processSubEntries] at h
      have hx := ih h hd
      exact hx
    | other =>
      simp only [processSubEntries] at h
      have hx := ih h hd
      exact hx

theorem pse_keeps_deep {b : DashcamBackup} {sp nd : Path} (cs : Entries)
    {st st' : St} {d : String} (X : Path)
    (h : processSubEntries b sp nd cs st = some st')
    (hd : d ∉ entryNames cs) :
    Entry.lookup st'.fs (nd ++ d :: X) = Entry.lookup st.fs (nd ++ d :: X) := by
  induction cs using Entries.spineInduction generalizing st with
  | h0 =>
    simp [processSubEntries] at h
    rw [← h]
  | h1 n c rest ih =>
    rw [entryNames] at hd
    simp only [List.mem_cons, not_or] at hd
    obtain ⟨hdn, hdrest⟩ := hd
    cases c with
    | file cc =>
      simp only [processSubEntries] at h
      cases hsc : shutilCopy st.fs (sp ++ [n]) nd with
      | none => rw [hsc] at h; simp at h
      | some fs2 =>
        rw [hsc] at h
        simp only [] at h
        rw [ih h hdrest]
        exact shutilCopy_keeps_deep X hsc (getLast?_append_singleton sp n)
          (fun he => hdn he.symm)
    | dir cs2 =>
      simp only [processSubEntries] at h
      have hx := ih h hdrest
      exact hx
    | other =>
      simp only [processSubEntries] at h
      have hx := ih h hdrest
      exact hx

theorem pse_writes {b : DashcamBackup} {sp nd : Path} (cs : Entries)
    {st st' : St} {m : String} {snap : Entry} {c : List Nat} {cs0 : Entries}
    (h : processSubEntries b sp nd cs st = some st')
    (hfind : findChild cs m = some snap) (hsnap : isFileE snap = true)
    (hnodup : (entryNames cs).Nodup)
    (hsrc : Entry.lookup st.fs (sp ++ [m]) = some (.file c))
    (hnd : Entry.lookup st.fs nd = some (.dir cs0))
    (h1 : leadsInto nd (sp ++ [m]) = false) :
    Entry.lookup st'.fs (nd ++ [m]) = some (.file c) := by
  induction cs using Entries.spineInduction generalizing st cs0 with
  | h0 => simp [findChild] at hfind
  | h1 k ck rest ih =>
    rw [entryNames] at hnodup
    rw [List.nodup_cons] at hnodup
    obtain ⟨hknotin, hnodup'⟩ := hnodup
    by_cases hk : k = m
    · subst hk
      rw [findChild] at hfind
      simp at hfind
      subst hfind
      cases ck with
      | dir cs2 => simp [isFileE] at hsnap
      | other => simp [isFileE] at hsnap
      | file cc =>
        simp only [processSubEntries] at h
        cases hsc : shutilCopy st.fs (sp ++ [k]) nd with
        | none => rw [hsc] at h; simp at h
        | some fs2 =>
          rw [hsc] at h
          simp only [] at h
          have hw : Entry.lookup fs2 (nd ++ [k]) = some (.file c) :=
            shutilCopy_writes hsc hnd (getLast?_append_singleton sp k) hsrc
          have := pse_keeps_deep rest ([] : Path) h hknotin
          rw [this]
          exact hw
    · rw [findChild] at hfind
      rw [if_neg hk] at hfind
      cases ck with
      | file cc =>
        simp only [processSubEntries] at h
        cases hsc : shutilCopy st.fs (sp ++ [k]) nd with
        | none => rw [hsc] at h; simp at h
        | some fs2 =>
          rw [hsc] at h
          simp only [] at h
          obtain ⟨cs1, hnd1⟩ := shutilCopy_keeps_dir_self hsc hnd
          exact ih h hfind hnodup' (shutilCopy_keeps_file hsc hsrc h1) hnd1
      | dir cs2 =>
        simp only [processSubEntries] at h
        have hx := ih h hfind hnodup' hsrc hnd
        exact hx
      | other =>
        simp only [processSubEntries] at h
        have hx := ih h hfind hnodup' hsrc hnd
        exact hx

theorem pse_out_quiet {b : DashcamBackup} {sp nd : Path} (cs : Entries)
    {st st' : St} (hv : b.verbose = false)
    (h : processSubEntries b sp nd cs st = some st') : st'.out = st.out := by
  induction cs using Entries.spineInduction generalizing st with
  | h0 =>
    simp [processSubEntries] at h
    rw [← h]
  | h1 n c rest ih =>
    cases c with
    | file cc =>
      simp only [processSubEntries] at h
      cases hsc : shutilCopy st.fs (sp ++ [n]) nd with
      | none => rw [hsc] at h; simp at h
      | some fs2 =>
        rw [hsc] at h
        simp only [] at h
        have hx := ih h
        exact hx
    | dir cs2 =>
      simp only [processSubEntries, hv] at h
      have hx := ih h
      simpa using hx
    | other =>
      simp only [processSubEntries, hv] at h
      have hx := ih h
      simpa using hx

theorem pse_out_mono {b : DashcamBackup} {sp nd : Path} (cs : Entries)
    {st st' : St} (h : processSubEntries b sp nd cs st = some st') :
    ∃ add, st'.out = st.out ++ add := by
  induction cs using Entries.spineInduction generalizing st with
  | h0 =>
    simp [processSubEntries] at h
    exact ⟨[], by rw [← h]; simp⟩
  | h1 n c rest ih =>
    cases c with
    | file cc =>
      simp only [processSubEntries] at h
      cases hsc : shutilCopy st.fs (sp ++ [n]) nd with
      | none => rw [hsc] at h; simp at h
      | some fs2 =>
        rw [hsc] at h
        simp only [] at h
        obtain ⟨add, hadd⟩ := ih h
        exact ⟨add, hadd⟩
    | dir cs2 =>
      simp only [processSubEntries] at h
      obtain ⟨add, hadd⟩ := ih h
      refine ⟨(if b.verbose = true then [depthMsg (sp ++ [n])] else []) ++ add, ?_⟩
      rw [hadd]
      simp
    | other =>
      simp only [processSubEntries] at h
      obtain ⟨add, hadd⟩ := ih h
      refine ⟨(if b.verbose = true then [depthMsg (sp ++ [n])] else []) ++ add, ?_⟩
      rw [hadd]
      simp

theorem pse_out_depth {b : DashcamBackup} {sp nd : Path} (cs : Entries)
    {st st' : St} {m : String} {snap : Entry}
    (hv : b.verbose = true)
    (h : processSubEntries b sp nd cs st = some st')
    (hfind : findChild cs m = some snap) (hsnap : isFileE snap = false) :
    depthMsg (sp ++ [m]) ∈ st'.out := by
  induction cs using Entries.spineInduction generalizing st with
  | h0 => simp [findChild] at hfind
  | h1 k ck rest ih =>
    by_cases hk : k = m
    · subst hk
      rw [findChild] at hfind
      simp at hfind
      subst hfind
      cases ck with
      | file cc => simp [isFileE] at hsnap
      | dir cs2 =>
        simp only [processSubEntries, hv] at h
        obtain ⟨add, hadd⟩ := pse_out_mono rest h
        rw [hadd]
        simp
      | other =>
        simp only [processSubEntries, hv] at h
        obtain ⟨add, hadd⟩ := pse_out_mono rest h
        rw [hadd]
        simp
    · rw [findChild] at hfind
      rw [if_neg hk] at hfind
      cases ck with
      | file cc =>
        simp only [processSubEntries] at h
        cases hsc : shutilCopy st.fs (sp ++ [k]) nd with
        | none => rw [hsc] at h; simp at h
        | some fs2 =>
          rw [hsc] at h
          simp only [] at h
          have hx := ih h hfind
          exact hx
      | dir cs2 =>
        simp only [processSubEntries] at h
        have hx := ih h hfind
        exact hx
      | other =>
        simp only [processSubEntries] at h
        have hx := ih h hfind
        exact hx

theorem lookup_dir_single (cs : Entries) (m : String) :
    Entry.lookup (.dir cs) [m] = findChild cs m := by
  cases h : findChild cs m <;> simp [Entry.lookup, h]

theorem pse_keeps_dir_self {b : DashcamBackup} {sp nd : Path} (cs : Entries)
    {st st' : St} {cs0 : Entries}
    (h : processSubEntries b sp nd cs st = some st')
    (hd : Entry.lookup st.fs nd = some (.dir cs0)) :
    ∃ cs1, Entry.lookup st'.fs nd = some (.dir cs1) := by
  induction cs using Entries.spineInduction generalizing st cs0 with
  | h0 =>
    simp [processSubEntries] at h
    rw [← h]
    exact ⟨cs0, hd⟩
  | h1 n c rest ih =>
    cases c with
    | file cc =>
      simp only [processSubEntries] at h
      cases hsc : shutilCopy st.fs (sp ++ [n]) nd with
      | none => rw [hsc] at h; simp at h
      | some fs2 =>
        rw [hsc] at h
        simp only [] at h
        obtain ⟨cs1, hd1⟩ := shutilCopy_keeps_dir_self hsc hd
        exact ih h hd1
    | dir cs2 =>
      simp only [processSubEntries] at h
      exact ih h hd
    | other =>
      simp only [processSubEntries] at h
      exact ih h hd

theorem pse_keeps_nonfile_target {b : DashcamBackup} {sp nd : Path} (cs : Entries)
    {st st' : St} {m : String} {e : Entry}
    (h : processSubEntries b sp nd cs st = some st')
    (hnodup : (entryNames cs).Nodup)
    (hfind : findChild cs m = some e) (he : isFileE e = false) :
    Entry.lookup st'.fs (nd ++ [m]) = Entry.lookup st.fs (nd ++ [m]) := by
  induction cs using Entries.spineInduction generalizing st with
  | h0 => simp [findChild] at hfind
  | h1 k ck rest ih =>
    rw [entryNames] at hnodup
    rw [List.nodup_cons] at hnodup
    obtain ⟨hknotin, hnodup'⟩ := hnodup
    by_cases hk : k = m
    · subst hk
      rw [findChild] at hfind
      simp at hfind
      subst hfind
      cases ck with
      | file cc => simp [isFileE] at he
      | dir cs2 =>
        simp only [processSubEntries] at h
        have hx := pse_keeps_deep rest ([] : Path) h hknotin
        exact hx
      | other =>
        simp only [processSubEntries] at h
        have hx := pse_keeps_deep rest ([] : Path) h hknotin
        exact hx
    · rw [findChild] at hfind
      rw [if_neg hk] at hfind
      cases ck with
      | file cc =>
        simp only [processSubEntries] at h
        cases hsc : shutilCopy st.fs (sp ++ [k]) nd with
        | none => rw [hsc] at h; simp at h
        | some fs2 =>
          rw [hsc] at h
          simp only [] at h
          have hx := ih h hnodup' hfind
          rw [hx]
          exact shutilCopy_keeps_deep ([] : Path) hsc (getLast?_append_singleton sp k) hk
      | dir cs2 =>
        simp only [processSubEntries] at h
        have hx := ih h hnodup' hfind
        exact hx
      | other =>
        simp only [processSubEntries] at h
        have hx := ih h hnodup' hfind
        exact hx

theorem pse_other_fails {b : DashcamBackup} {sp nd : Path} (cs : Entries)
    {st : St} {m : String} {c : List Nat}
    (hother : Entry.lookup st.fs nd = some .other)
    (hfind : findChild cs m = some (.file c)) :
    processSubEntries b sp nd cs st = none := by
  induction cs using Entries.spineInduction generalizing st with
  | h0 => simp [findChild] at hfind
  | h1 k ck rest ih =>
    cases ck with
    | file cc =>
      simp only [processSubEntries]
      have hcopy : shutilCopy st.fs (sp ++ [k]) nd = none := by
        unfold shutilCopy
        cases hs : Entry.lookup st.fs (sp ++ [k]) with
        | none => rfl
        | some e =>
          cases e with
          | file c2 => rw [hother]
          | dir cs2 => rfl
          | other => rfl
      rw [hcopy]
    | dir cs2 =>
      have hk : k ≠ m := by
        intro he
        subst he
        rw [findChild] at hfind
        simp at hfind
      rw [findChild, if_neg hk] at hfind
      simp only [processSubEntries]
      exact ih hother hfind
    | other =>
      have hk : k ≠ m := by
        intro he
        subst he
        rw [findChild] at hfind
        simp at hfind
      rw [findChild, if_neg hk] at hfind
      simp only [processSubEntries]
      exact ih hother hfind

/-! ### Lemmas about one iteration of the entry loop -/

theorem pe_lookup_diverge {b : DashcamBackup} {sp dstPath : Path} {st st' : St}
    {n : String} {c : Entry} (p : Path)
    (h : processEntry b sp dstPath st n c = some st')
    (h1 : leadsInto dstPath p = false) (h2 : leadsInto p dstPath = false) :
    Entry.lookup st'.fs p = Entry.lookup st.fs p := by
  obtain ⟨d1, d2⟩ := diverge_of_extend (leadsInto_append dstPath [n]) h1 h2
  cases c with
  | file cc =>
    simp only [processEntry] at h
    cases hsc : shutilCopy st.fs (sp ++ [n]) dstPath with
    | none => rw [hsc] at h; simp at h
    | some fs2 =>
      rw [hsc] at h
      simp only [] at h
      have hst := Option.some.inj h
      subst hst
      exact shutilCopy_lookup_diverge p hsc h1 h2
  | other =>
    simp only [processEntry] at h
    have hst := Option.some.inj h
    subst hst
    rfl
  | dir cs2 =>
    simp only [processEntry] at h
    cases hex : (Entry.lookup st.fs (dstPath ++ [n])).isSome with
    | true =>
      rw [hex] at h
      simp only [if_true] at h
      exact pse_lookup_diverge cs2 p h d1 d2
    | false =>
      rw [hex] at h
      simp only [Bool.false_eq_true, if_false] at h
      cases hmk : mkdirRaw st.fs (dstPath ++ [n]) with
      | none => rw [hmk] at h; simp at h
      | some fs2 =>
        rw [hmk] at h
        simp only [] at h
        have hx := pse_lookup_diverge cs2 p h d1 d2
        rw [hx]
        exact mkdirRaw_lookup_diverge hmk d1 d2

theorem pe_keeps_file {b : DashcamBackup} {sp dstPath : Path} {st st' : St}
    {n : String} {c : Entry} {p : Path} {c0 : List Nat}
    (h : processEntry b sp dstPath st n c = some st')
    (hf : Entry.lookup st.fs p = some (.file c0))
    (h1 : leadsInto dstPath p = false) :
    Entry.lookup st'.fs p = some (.file c0) := by
  have d1 : leadsInto (dstPath ++ [n]) p = false :=
    not_lead_extend (leadsInto_append dstPath [n]) h1
  cases c with
  | file cc =>
    simp only [processEntry] at h
    cases hsc : shutilCopy st.fs (sp ++ [n]) dstPath with
    | none => rw [hsc] at h; simp at h
    | some fs2 =>
      rw [hsc] at h
      simp only [] at h
      have hst := Option.some.inj h
      subst hst
      exact shutilCopy_keeps_file hsc hf h1
  | other =>
    simp only [processEntry] at h
    have hst := Option.some.inj h
    subst hst
    exact hf
  | dir cs2 =>
    simp only [processEntry] at h
    cases hex : (Entry.lookup st.fs (dstPath ++ [n])).isSome with
    | true =>
      rw [hex] at h
      simp only [if_true] at h
      exact pse_keeps_file cs2 h hf d1
    | false =>
      rw [hex] at h
      simp only [Bool.false_eq_true, if_false] at h
      cases hmk : mkdirRaw st.fs (dstPath ++ [n]) with
      | none => rw [hmk] at h; simp at h
      | some fs2 =>
        rw [hmk] at h
        simp only [] at h
        exact pse_keeps_file cs2 h (mkdirRaw_keeps_file hmk hf) d1

theorem pe_keeps_deep {b : DashcamBackup} {sp dstPath : Path} {st st' : St}
    {n d : String} {c : Entry} (X : Path)
    (h : processEntry b sp dstPath st n c = some st') (hnd : n ≠ d) :
    Entry.lookup st'.fs (dstPath ++ d :: X) = Entry.lookup st.fs (dstPath ++ d :: X) := by
  have d1 : leadsInto (dstPath ++ [n]) (dstPath ++ d :: X) = false :=
    leadsInto_append_cons_ne [] X hnd
  have d2 : leadsInto (dstPath ++ d :: X) (dstPath ++ [n]) = false :=
    leadsInto_append_cons_ne X [] (Ne.symm hnd)
  cases c with
  | file cc =>
    simp only [processEntry] at h
    cases hsc : shutilCopy st.fs (sp ++ [n]) dstPath with
    | none => rw [hsc] at h; simp at h
    | some fs2 =>
      rw [hsc] at h
      simp only [] at h
      have hst := Option.some.inj h
      subst hst
      exact shutilCopy_keeps_deep X hsc (getLast?_append_singleton sp n) hnd
  | other =>
    simp only [processEntry] at h
    have hst := Option.some.inj h
    subst hst
    rfl
  | dir cs2 =>
    simp only [processEntry] at h
    cases hex : (Entry.lookup st.fs (dstPath ++ [n])).isSome with
    | true =>
      rw [hex] at h
      simp only [if_true] at h
      exact pse_lookup_diverge cs2 _ h d1 d2
    | false =>
      rw [hex] at h
      simp only [Bool.false_eq_true, if_false] at h
      cases hmk : mkdirRaw st.fs (dstPath ++ [n]) with
      | none => rw [hmk] at h; simp at h
      | some fs2 =>
        rw [hmk] at h
        simp only [] at h
        have hx := pse_lookup_diverge cs2 _ h d1 d2
        rw [hx]
        exact mkdirRaw_lookup_diverge hmk d1 d2

theorem pe_keeps_dir_self {b : DashcamBackup} {sp dstPath : Path} {st st' : St}
    {n : String} {c : Entry} {cs0 : Entries}
    (h : processEntry b sp dstPath st n c = some st')
    (hd : Entry.lookup st.fs dstPath = some (.dir cs0)) :
    ∃ cs1, Entry.lookup st'.fs dstPath = some (.dir cs1) := by
  cases c with
  | file cc =>
    simp only [processEntry] at h
    cases hsc : shutilCopy st.fs (sp ++ [n]) dstPath with
    | none => rw [hsc] at h; simp at h
    | some fs2 =>
      rw [hsc] at h
      simp only [] at h
      have hst := Option.some.inj h
      subst hst
      exact shutilCopy_keeps_dir_self hsc hd
  | other =>
    simp only [processEntry] at h
    have hst := Option.some.inj h
    subst hst
    exact ⟨cs0, hd⟩
  | dir cs2 =>
    simp only [processEntry] at h
    cases hex : (Entry.lookup st.fs (dstPath ++ [n])).isSome with
    | true =>
      rw [hex] at h
      simp only [if_true] at h
      exact pse_keeps_dir_above cs2 h hd (leadsInto_append dstPath [n])
        (ne_append_singleton dstPath n)
    | false =>
      rw [hex] at h
      simp only [Bool.false_eq_true, if_false] at h
      cases hmk : mkdirRaw st.fs (dstPath ++ [n]) with
      | none => rw [hmk] at h; simp at h
      | some fs2 =>
        rw [hmk] at h
        simp only [] at h
        obtain ⟨cs1, hd1⟩ := mkdirRaw_keeps_dir_above hmk hd
          (leadsInto_append dstPath [n]) (ne_append_singleton dstPath n)
        exact pse_keeps_dir_above cs2 h hd1 (leadsInto_append dstPath [n])
          (ne_append_singleton dstPath n)

theorem pe_writes_top {b : DashcamBackup} {sp dstPath : Path} {st st' : St}
    {n : String} {snap : List Nat} {c0 : List Nat} {cs0 : Entries}
    (h : processEntry b sp dstPath st n (.file snap) = some st')
    (hsrc : Entry.lookup st.fs (sp ++ [n]) = some (.file c0))
    (hd : Entry.lookup st.fs dstPath = some (.dir cs0)) :
    Entry.lookup st'.fs (dstPath ++ [n]) = some (.file c0) := by
  simp only [processEntry] at h
  cases hsc : shutilCopy st.fs (sp ++ [n]) dstPath with
  | none => rw [hsc] at h; simp at h
  | some fs2 =>
    rw [hsc] at h
    simp only [] at h
    have hst := Option.some.inj h
    subst hst
    exact shutilCopy_writes hsc hd (getLast?_append_singleton sp n) hsrc

theorem isFileE_false_of_not_file {e : Entry} (h : isFileE e = true → False) :
    isFileE e = false := by
  cases he : isFileE e with
  | false => rfl
  | true => exact absurd he h

/-- The effect of one directory entry of the outer loop: files one level
down are copied into the same-named destination subdirectory (created if
absent), deeper directories are skipped with a verbose-only note. -/
theorem pe_dir_effect {b : DashcamBackup} {sp dstPath : Path} {st st' : St}
    {d : String} {cs2 : Entries}
    (h : processEntry b sp dstPath st d (.dir cs2) = some st')
    (hsrc : Entry.lookup st.fs (sp ++ [d]) = some (.dir cs2))
    (hnodup : (entryNames cs2).Nodup)
    (hnotfile : isFileAt st.fs (dstPath ++ [d]) = false)
    (hI1 : leadsInto dstPath (sp ++ [d]) = false)
    (hI2 : leadsInto (sp ++ [d]) dstPath = false) :
    (Entry.lookup st.fs (dstPath ++ [d]) = none →
      ∃ cs3, Entry.lookup st'.fs (dstPath ++ [d]) = some (.dir cs3)) ∧
    (∀ m c, findChild cs2 m = some (.file c) →
      Entry.lookup st'.fs (dstPath ++ [d] ++ [m]) = some (.file c)) ∧
    (∀ m e, findChild cs2 m = some e → isDirE e = true →
      Entry.lookup st.fs (dstPath ++ [d] ++ [m]) = none →
      Entry.lookup st'.fs (dstPath ++ [d] ++ [m]) = none) ∧
    (b.verbose = true → ∀ m e, findChild cs2 m = some e → isFileE e = false →
      depthMsg (sp ++ [d] ++ [m]) ∈ st'.out) ∧
    (b.verbose = false → st'.out = st.out) := by
  have HD := diverge_of_extend (leadsInto_append dstPath [d]) hI1 hI2
  have HM : ∀ m : String,
      leadsInto (dstPath ++ [d]) (sp ++ [d] ++ [m]) = false := by
    intro m
    exact (diverge_of_extend (leadsInto_append (sp ++ [d]) [m]) HD.2 HD.1).2
  have hsrcm : ∀ m c, findChild cs2 m = some (.file c) →
      Entry.lookup st.fs (sp ++ [d] ++ [m]) = some (.file c) := by
    intro m c hfind
    rw [Entry.lookup_append, hsrc]
    simp [lookup_dir_single, hfind]
  simp only [processEntry] at h
  cases hex : (Entry.lookup st.fs (dstPath ++ [d])).isSome with
  | true =>
    rw [hex] at h
    simp only [if_true] at h
    cases hlook : Entry.lookup st.fs (dstPath ++ [d]) with
    | none => rw [hlook] at hex; simp at hex
    | some e0 =>
      cases e0 with
      | file cc =>
        unfold isFileAt at hnotfile
        rw [hlook] at hnotfile
        simp at hnotfile
      | dir cs3 =>
        refine ⟨?_, ?_, ?_, ?_, ?_⟩
        · intro hnone
          simp [hlook] at hnone
        · intro m c hfind
          exact pse_writes cs2 h hfind rfl hnodup (hsrcm m c hfind) hlook (HM m)
        · intro m e hfind hdir hnone
          have hnf : isFileE e = false := by
            cases e with
            | file c9 => simp [isDirE] at hdir
            | dir cs9 => rfl
            | other => rfl
          have hx := pse_keeps_nonfile_target cs2 h hnodup hfind hnf
          rw [hx]
          exact hnone
        · intro hv m e hfind hnf
          exact pse_out_depth cs2 hv h hfind hnf
        · intro hv
          exact pse_out_quiet cs2 hv h
      | other =>
        refine ⟨?_, ?_, ?_, ?_, ?_⟩
        · intro hnone
          simp [hlook] at hnone
        · intro m c hfind
          rw [pse_other_fails cs2 hlook hfind] at h
          exact Option.noConfusion h
        · intro m e hfind hdir hnone
          have hnf : isFileE e = false := by
            cases e with
            | file c9 => simp [isDirE] at hdir
            | dir cs9 => rfl
            | other => rfl
          have hx := pse_keeps_nonfile_target cs2 h hnodup hfind hnf
          rw [hx]
          exact hnone
        · intro hv m e hfind hnf
          exact pse_out_depth cs2 hv h hfind hnf
        · intro hv
          exact pse_out_quiet cs2 hv h
  | false =>
    rw [hex] at h
    simp only [Bool.false_eq_true, if_false] at h
    cases hmk : mkdirRaw st.fs (dstPath ++ [d]) with
    | none => rw [hmk] at h; simp at h
    | some fs2 =>
      rw [hmk] at h
      simp only [] at h
      have hcreated : Entry.lookup fs2 (dstPath ++ [d]) = some (.dir .nil) :=
        mkdirRaw_creates hmk
      refine ⟨?_, ?_, ?_, ?_, ?_⟩
      · intro _
        have hx := pse_keeps_dir_self cs2 h hcreated
        exact hx
      · intro m c hfind
        have hsrcm2 : Entry.lookup fs2 (sp ++ [d] ++ [m]) = some (.file c) :=
          mkdirRaw_keeps_file hmk (hsrcm m c hfind)
        have hx := pse_writes cs2 h hfind rfl hnodup hsrcm2 hcreated (HM m)
        exact hx
      · intro m e hfind hdir hnone
        have hunder : Entry.lookup fs2 (dstPath ++ [d] ++ [m]) = none := by
          rw [Entry.lookup_append, hcreated]
          simp [lookup_dir_single, findChild]
        have hnf : isFileE e = false := by
          cases e with
          | file c9 => simp [isDirE] at hdir
          | dir cs9 => rfl
          | other => rfl
        have hx := pse_keeps_nonfile_target cs2 h hnodup hfind hnf
        rw [hx]
        exact hunder
      · intro hv m e hfind hnf
        have hx := pse_out_depth cs2 hv h hfind hnf
        exact hx
      · intro hv
        have hx := pse_out_quiet cs2 hv h
        exact hx

theorem pe_out_quiet {b : DashcamBackup} {sp dstPath : Path} {st st' : St}
    {n : String} {c : Entry} (hv : b.verbose = false)
    (h : processEntry b sp dstPath st n c = some st') : st'.out = st.out := by
  cases c with
  | file cc =>
    simp only [processEntry] at h
    cases hsc : shutilCopy st.fs (sp ++ [n]) dstPath with
    | none => rw [hsc] at h; simp at h
    | some fs2 =>
      rw [hsc] at h
      simp only [] at h
      have hst := Option.some.inj h
      subst hst
      simp [hv]
  | other =>
    simp only [processEntry] at h
    have hst := Option.some.inj h
    subst hst
    simp [hv]
  | dir cs2 =>
    simp only [processEntry] at h
    cases hex : (Entry.lookup st.fs (dstPath ++ [n])).isSome with
    | true =>
      rw [hex] at h
      simp only [if_true] at h
      exact pse_out_quiet cs2 hv h
    | false =>
      rw [hex] at h
      simp only [Bool.false_eq_true, if_false] at h
      cases hmk : mkdirRaw st.fs (dstPath ++ [n]) with
      | none => rw [hmk] at h; simp at h
      | some fs2 =>
        rw [hmk] at h
        simp only [] at h
        have hx := pse_out_quiet cs2 hv h
        exact hx

theorem pe_out_mono {b : DashcamBackup} {sp dstPath : Path} {st st' : St}
    {n : String} {c : Entry}
    (h : processEntry b sp dstPath st n c = some st') :
    ∃ add, st'.out = st.out ++ add := by
  cases c with
  | file cc =>
    simp only [processEntry] at h
    cases hsc : shutilCopy st.fs (sp ++ [n]) dstPath with
    | none => rw [hsc] at h; simp at h
    | some fs2 =>
      rw [hsc] at h
      simp only [] at h
      have hst := Option.some.inj h
      subst hst
      exact ⟨_, rfl⟩
  | other =>
    simp only [processEntry] at h
    have hst := Option.some.inj h
    subst hst
    exact ⟨_, rfl⟩
  | dir cs2 =>
    simp only [processEntry] at h
    cases hex : (Entry.lookup st.fs (dstPath ++ [n])).isSome with
    | true =>
      rw [hex] at h
      simp only [if_true] at h
      exact pse_out_mono cs2 h
    | false =>
      rw [hex] at h
      simp only [Bool.false_eq_true, if_false] at h
      cases hmk : mkdirRaw st.fs (dstPath ++ [n]) with
      | none => rw [hmk] at h; simp at h
      | some fs2 =>
        rw [hmk] at h
        simp only [] at h
        obtain ⟨add, hadd⟩ := pse_out_mono cs2 h
        exact ⟨add, hadd⟩

/-! ### Lemmas about the full entry loop of one clip subdirectory -/

theorem pes2_lookup_diverge {b : DashcamBackup} {sp dstPath : Path} (cs : Entries)
    {k k' : Nat} {st st' : St} (p : Path)
    (h : processEntries b sp dstPath cs k st = some (k', st'))
    (h1 : leadsInto dstPath p = false) (h2 : leadsInto p dstPath = false) :
    Entry.lookup st'.fs p = Entry.lookup st.fs p := by
  induction cs using Entries.spineInduction generalizing st k with
  | h0 =>
    simp [processEntries] at h
    rw [← h.2]
  | h1 n c rest ih =>
    simp only [processEntries] at h
    cases hpe : processEntry b sp dstPath st n c with
    | none => rw [hpe] at h; simp at h
    | some st1 =>
      rw [hpe] at h
      simp only [] at h
      have hy := pe_lookup_diverge p hpe h1 h2
      have hx := ih h
      rw [hx]
      exact hy

theorem pes2_keeps_file {b : DashcamBackup} {sp dstPath : Path} (cs : Entries)
    {k k' : Nat} {st st' : St} {p : Path} {c0 : List Nat}
    (h : processEntries b sp dstPath cs k st = some (k', st'))
    (hf : Entry.lookup st.fs p = some (.file c0))
    (h1 : leadsInto dstPath p = false) :
    Entry.lookup st'.fs p = some (.file c0) := by
  induction cs using Entries.spineInduction generalizing st k with
  | h0 =>
    simp [processEntries] at h
    rw [← h.2]
    exact hf
  | h1 n c rest ih =>
    simp only [processEntries] at h
    cases hpe : processEntry b sp dstPath st n c with
    | none => rw [hpe] at h; simp at h
    | some st1 =>
      rw [hpe] at h
      simp only [] at h
      have hkeep := pe_keeps_file hpe hf h1
      have hx := ih h hkeep
      exact hx

theorem pes2_keeps_deep {b : DashcamBackup} {sp dstPath : Path} (cs : Entries)
    {k k' : Nat} {st st' : St} {d : String} (X : Path)
    (h : processEntries b sp dstPath cs k st = some (k', st'))
    (hd : d ∉ entryNames cs) :
    Entry.lookup st'.fs (dstPath ++ d :: X) = Entry.lookup st.fs (dstPath ++ d :: X) := by
  induction cs using Entries.spineInduction generalizing st k with
  | h0 =>
    simp [processEntries] at h
    rw [← h.2]
  | h1 n c rest ih =>
    rw [entryNames] at hd
    simp only [List.mem_cons, not_or] at hd
    obtain ⟨hdn, hdrest⟩ := hd
    simp only [processEntries] at h
    cases hpe : processEntry b sp dstPath st n c with
    | none => rw [hpe] at h; simp at h
    | some st1 =>
      rw [hpe] at h
      simp only [] at h
      have hy := pe_keeps_deep X hpe (fun he => hdn he.symm)
      have hx := ih h hdrest
      rw [hx]
      exact hy

theorem pes2_keeps_dir_self {b : DashcamBackup} {sp dstPath : Path} (cs : Entries)
    {k k' : Nat} {st st' : St} {cs0 : Entries}
    (h : processEntries b sp dstPath cs k st = some (k', st'))
    (hd : Entry.lookup st.fs dstPath = some (.dir cs0)) :
    ∃ cs1, Entry.lookup st'.fs dstPath = some (.dir cs1) := by
  induction cs using Entries.spineInduction generalizing st k cs0 with
  | h0 =>
    simp [processEntries] at h
    rw [← h.2]
    exact ⟨cs0, hd⟩
  | h1 n c rest ih =>
    simp only [processEntries] at h
    cases hpe : processEntry b sp dstPath st n c with
    | none => rw [hpe] at h; simp at h
    | some st1 =>
      rw [hpe] at h
      simp only [] at h
      obtain ⟨cs1, hd1⟩ := pe_keeps_dir_self hpe hd
      exact ih h hd1

theorem pes2_writes_top {b : DashcamBackup} {sp dstPath : Path} (cs : Entries)
    {k k' : Nat} {st st' : St} {n : String} {snap c0 : List Nat} {cs0 : Entries}
    (h : processEntries b sp dstPath cs k st = some (k', st'))
    (hfind : findChild cs n = some (.file snap))
    (hnodup : (entryNames cs).Nodup)
    (hsrc : Entry.lookup st.fs (sp ++ [n]) = some (.file c0))
    (hd : Entry.lookup st.fs dstPath = some (.dir cs0))
    (h1 : leadsInto dstPath (sp ++ [n]) = false) :
    Entry.lookup st'.fs (dstPath ++ [n]) = some (.file c0) := by
  induction cs using Entries.spineInduction generalizing st k cs0 with
  | h0 => simp [findChild] at hfind
  | h1 x cx rest ih =>
    rw [entryNames] at hnodup
    rw [List.nodup_cons] at hnodup
    obtain ⟨hknotin, hnodup'⟩ := hnodup
    simp only [processEntries] at h
    by_cases hx : x = n
    · subst hx
      rw [findChild] at hfind
      simp at hfind
      subst hfind
      cases hpe : processEntry b sp dstPath st x (.file snap) with
      | none => rw [hpe] at h; simp at h
      | some st1 =>
        rw [hpe] at h
        simp only [] at h
        have hw := pe_writes_top hpe hsrc hd
        have hrest := pes2_keeps_deep rest ([] : Path) h hknotin
        rw [hrest]
        exact hw
    · rw [findChild] at hfind
      rw [if_neg hx] at hfind
      cases hpe : processEntry b sp dstPath st x cx with
      | none => rw [hpe] at h; simp at h
      | some st1 =>
        rw [hpe] at h
        simp only [] at h
        obtain ⟨cs1, hd1⟩ := pe_keeps_dir_self hpe hd
        have hkeep := pe_keeps_file hpe hsrc h1
        have hx2 := ih h hfind hnodup' hkeep hd1
        exact hx2

theorem pes2_out_quiet {b : DashcamBackup} {sp dstPath : Path} (cs : Entries)
    {k k' : Nat} {st st' : St} (hv : b.verbose = false)
    (h : processEntries b sp dstPath cs k st = some (k', st')) :
    st'.out = st.out := by
  induction cs using Entries.spineInduction generalizing st k with
  | h0 =>
    simp [processEntries] at h
    rw [← h.2]
  | h1 n c rest ih =>
    simp only [processEntries] at h
    cases hpe : processEntry b sp dstPath st n c with
    | none => rw [hpe] at h; simp at h
    | some st1 =>
      rw [hpe] at h
      simp only [] at h
      have hx := ih h
      rw [hx]
      simp [hv, pe_out_quiet hv hpe]

theorem pes2_out_mono {b : DashcamBackup} {sp dstPath : Path} (cs : Entries)
    {k k' : Nat} {st st' : St}
    (h : processEntries b sp dstPath cs k st = some (k', st')) :
    ∃ add, st'.out = st.out ++ add := by
  induction cs using Entries.spineInduction generalizing st k with
  | h0 =>
    simp [processEntries] at h
    exact ⟨[], by rw [← h.2]; simp⟩
  | h1 n c rest ih =>
    simp only [processEntries] at h
    cases hpe : processEntry b sp dstPath st n c with
    | none => rw [hpe] at h; simp at h
    | some st1 =>
      rw [hpe] at h
      simp only [] at h
      obtain ⟨add1, hadd1⟩ := pe_out_mono hpe
      obtain ⟨add2, hadd2⟩ := ih h
      refine ⟨add1 ++ (if b.verbose = true then [copyingMsg (sp ++ [n]) dstPath] else []) ++ add2, ?_⟩
      rw [hadd2]
      simp only []
      rw [hadd1]
      simp

theorem pes2_dst_other_fails {b : DashcamBackup} {sp dstPath : Path} (cs : Entries)
    {k : Nat} {st : St} {n : String} {e : Entry}
    (hother : Entry.lookup st.fs dstPath = some .other)
    (hfind : findChild cs n = some e) (he : e ≠ .other) :
    processEntries b sp dstPath cs k st = none := by
  induction cs using Entries.spineInduction generalizing st k with
  | h0 => simp [findChild] at hfind
  | h1 x cx rest ih =>
    cases cx with
    | file cc =>
      have hpe : processEntry b sp dstPath st x (.file cc) = none := by
        simp only [processEntry]
        have hcopy : shutilCopy st.fs (sp ++ [x]) dstPath = none := by
          unfold shutilCopy
          cases hs : Entry.lookup st.fs (sp ++ [x]) with
          | none => rfl
          | some e2 =>
            cases e2 with
            | file c2 => rw [hother]
            | dir cs2 => rfl
            | other => rfl
        rw [hcopy]
      simp only [processEntries, hpe]
    | dir cs2 =>
      have hpe : processEntry b sp dstPath st x (.dir cs2) = none := by
        simp only [processEntry]
        have hnone : Entry.lookup st.fs (dstPath ++ [x]) = none :=
          lookup_under_other x [] hother
        rw [hnone]
        simp only [Option.isSome_none, Bool.false_eq_true, if_false]
        rw [mkdirRaw_none_of_parent_other x hother]
      simp only [processEntries, hpe]
    | other =>
      have hx : x ≠ n := by
        intro hxx
        subst hxx
        rw [findChild] at hfind
        simp at hfind
        exact he hfind.symm
      rw [findChild, if_neg hx] at hfind
      simp only [processEntries, processEntry]
      exact ih hother hfind

theorem append_two (p : Path) (a b2 : String) : p ++ [a] ++ [b2] = p ++ a :: [b2] := by
  rw [List.append_assoc]
  rfl

theorem makeDir_skip {st : St} {path : Path} (m1 m2 : String)
    (h : (Entry.lookup st.fs path).isSome = true) :
    makeDirectoryIfNotExist st path m1 m2 = some st := by
  simp [makeDirectoryIfNotExist, h]

theorem isFileAt_congr {fs1 fs2 : Entry} {p : Path}
    (h : Entry.lookup fs1 p = Entry.lookup fs2 p) :
    isFileAt fs1 p = isFileAt fs2 p := by
  unfold isFileAt
  rw [h]

theorem pes2_dir_effect {b : DashcamBackup} {sp dstPath : Path} (cs : Entries)
    {k k' : Nat} {st st' : St} {d : String} {cs2 : Entries}
    (h : processEntries b sp dstPath cs k st = some (k', st'))
    (hfind : findChild cs d = some (.dir cs2))
    (hnodup : (entryNames cs).Nodup)
    (hsrcdir : Entry.lookup st.fs (sp ++ [d]) = some (.dir cs2))
    (hnodup2 : (entryNames cs2).Nodup)
    (hnotfile : isFileAt st.fs (dstPath ++ [d]) = false)
    (hI1 : leadsInto dstPath (sp ++ [d]) = false)
    (hI2 : leadsInto (sp ++ [d]) dstPath = false) :
    (Entry.lookup st.fs (dstPath ++ [d]) = none →
      ∃ cs3, Entry.lookup st'.fs (dstPath ++ [d]) = some (.dir cs3)) ∧
    (∀ m c, findChild cs2 m = some (.file c) →
      Entry.lookup st'.fs (dstPath ++ [d] ++ [m]) = some (.file c)) ∧
    (∀ m e, findChild cs2 m = some e → isDirE e = true →
      Entry.lookup st.fs (dstPath ++ [d] ++ [m]) = none →
      Entry.lookup st'.fs (dstPath ++ [d] ++ [m]) = none) ∧
    (b.verbose = true → ∀ m e, findChild cs2 m = some e → isFileE e = false →
      depthMsg (sp ++ [d] ++ [m]) ∈ st'.out) ∧
    (b.verbose = false → st'.out = st.out) := by
  induction cs using Entries.spineInduction generalizing st k with
  | h0 => simp [findChild] at hfind
  | h1 x cx rest ih =>
    rw [entryNames] at hnodup
    rw [List.nodup_cons] at hnodup
    obtain ⟨hxnotin, hnodup'⟩ := hnodup
    simp only [processEntries] at h
    by_cases hx : x = d
    · subst hx
      rw [findChild] at hfind
      simp at hfind
      subst hfind
      cases hpe : processEntry b sp dstPath st x (.dir cs2) with
      | none => rw [hpe] at h; simp at h
      | some st1 =>
        rw [hpe] at h
        simp only [] at h
        have E := pe_dir_effect hpe hsrcdir hnodup2 hnotfile hI1 hI2
        refine ⟨?_, ?_, ?_, ?_, ?_⟩
        · intro hnone
          obtain ⟨cs3, h3⟩ := E.1 hnone
          have hrest := pes2_keeps_deep rest ([] : Path) h hxnotin
          rw [hrest]
          exact ⟨cs3, h3⟩
        · intro m c hf2
          have h3 := E.2.1 m c hf2
          have hrest := pes2_keeps_deep rest [m] h hxnotin
          rw [append_two] at h3 ⊢
          rw [hrest]
          exact h3
        · intro m e hf2 hdir hnone
          have h3 := E.2.2.1 m e hf2 hdir hnone
          have hrest := pes2_keeps_deep rest [m] h hxnotin
          rw [append_two] at h3 ⊢
          rw [hrest]
          exact h3
        · intro hv m e hf2 hnf
          have h3 := E.2.2.2.1 hv m e hf2 hnf
          obtain ⟨add, hadd⟩ := pes2_out_mono rest h
          rw [hadd]
          simp only [List.mem_append]
          left
          left
          exact h3
        · intro hv
          have hq := pes2_out_quiet rest hv h
          rw [hq]
          simp [hv, E.2.2.2.2 hv]
    · rw [findChild] at hfind
      rw [if_neg hx] at hfind
      cases hpe : processEntry b sp dstPath st x cx with
      | none => rw [hpe] at h; simp at h
      | some st1 =>
        rw [hpe] at h
        simp only [] at h
        have hsrc1 := pe_lookup_diverge (sp ++ [d]) hpe hI1 hI2
        rw [hsrcdir] at hsrc1
        have hdeep0 := pe_keeps_deep ([] : Path) hpe hx
        have hnot1 : isFileAt st1.fs (dstPath ++ [d]) = false := by
          rw [isFileAt_congr hdeep0]
          exact hnotfile
        have IH := ih h hfind hnodup' hsrc1 hnot1
        refine ⟨?_, ?_, ?_, ?_, ?_⟩
        · intro hnone
          have hnone1 : Entry.lookup st1.fs (dstPath ++ [d]) = none := by
            rw [hdeep0]
            exact hnone
          exact IH.1 hnone1
        · intro m c hf2
          exact IH.2.1 m c hf2
        · intro m e hf2 hdir hnone
          have hdeepm := pe_keeps_deep [m] hpe hx
          have hnone1 : Entry.lookup st1.fs (dstPath ++ [d] ++ [m]) = none := by
            rw [append_two, hdeepm, ← append_two]
            exact hnone
          exact IH.2.2.1 m e hf2 hdir hnone1
        · intro hv m e hf2 hnf
          exact IH.2.2.2.1 hv m e hf2 hnf
        · intro hv
          rw [IH.2.2.2.2 hv]
          simp [hv, pe_out_quiet hv hpe]

theorem pes2_dst_other_absurd {b : DashcamBackup} {sp dstPath : Path}
    (cs : Entries) {k : Nat} {st : St} {r : Nat × St} {n : String} {e : Entry}
    (h : processEntries b sp dstPath cs k st = some r)
    (hother : Entry.lookup st.fs dstPath = some .other)
    (hfind : findChild cs n = some e) (he : e ≠ .other) : False := by
  rw [pes2_dst_other_fails cs hother hfind he] at h
  exact Option.noConfusion h

/-! ### Lemmas about one clip subdirectory pass -/

theorem psub_keeps_file {b : DashcamBackup} {st st' : St} {sub : String}
    {p : Path} {c0 : List Nat}
    (h : processSubdir b st sub = some st')
    (hf : Entry.lookup st.fs p = some (.file c0))
    (h1 : leadsInto (b.destination ++ [rootDirectory, sub]) p = false) :
    Entry.lookup st'.fs p = some (.file c0) := by
  simp only [processSubdir] at h
  split at h
  · simp at h
  · rename_i st1 hmd1
    split at h
    · simp at h
    · rename_i st2 hmd2
      split at h
      · rename_i cs hlook
        split at h
        · simp at h
        · rename_i pr n4 st4 hpes
          have hst := Option.some.inj h
          subst hst
          have hf1 := makeDir_keeps_file hmd1 hf
          have hf2 := makeDir_keeps_file hmd2 hf1
          have hf4 := pes2_keeps_file _ hpes hf2 h1
          exact hf4
      · simp at h

theorem psub_lookup_diverge {b : DashcamBackup} {st st' : St} {sub : String}
    (p : Path) (h : processSubdir b st sub = some st')
    (c1 : leadsInto (b.source ++ [rootDirectory, sub]) p = false)
    (c2 : leadsInto p (b.source ++ [rootDirectory, sub]) = false)
    (c3 : leadsInto (b.destination ++ [rootDirectory, sub]) p = false)
    (c4 : leadsInto p (b.destination ++ [rootDirectory, sub]) = false) :
    Entry.lookup st'.fs p = Entry.lookup st.fs p := by
  simp only [processSubdir] at h
  split at h
  · simp at h
  · rename_i st1 hmd1
    split at h
    · simp at h
    · rename_i st2 hmd2
      split at h
      · rename_i cs hlook
        split at h
        · simp at h
        · rename_i pr n4 st4 hpes
          have hst := Option.some.inj h
          subst hst
          have e1 := makeDir_lookup_diverge p hmd1 c1 c2
          have e2 := makeDir_lookup_diverge p hmd2 c3 c4
          have e4 := pes2_lookup_diverge _ p hpes c3 c4
          rw [e4, e2, e1]
      · simp at h

/-- The copy effects of one subdirectory pass on its own clip subdirectory:
top-level files land at the same name in the destination subdirectory, and
files one directory level down land in the same-named nested
subdirectory. -/
theorem psub_main {b : DashcamBackup} {st st' : St} {sub : String} {cs : Entries}
    (h : processSubdir b st sub = some st')
    (hI1 : leadsInto b.source b.destination = false)
    (hI2 : leadsInto b.destination b.source = false)
    (hsrc : Entry.lookup st.fs (b.source ++ [rootDirectory, sub]) = some (.dir cs))
    (hnodup : (entryNames cs).Nodup)
    (hnotfile : isFileAt st.fs (b.destination ++ [rootDirectory, sub]) = false) :
    (∀ n c, findChild cs n = some (.file c) →
      Entry.lookup st'.fs (b.destination ++ [rootDirectory, sub] ++ [n]) =
        some (.file c)) ∧
    (∀ d cs2, findChild cs d = some (.dir cs2) → (entryNames cs2).Nodup →
      isFileAt st.fs (b.destination ++ [rootDirectory, sub] ++ [d]) = false →
      ∀ m c, findChild cs2 m = some (.file c) →
        Entry.lookup st'.fs (b.destination ++ [rootDirectory, sub] ++ [d] ++ [m]) =
          some (.file c)) := by
  have HX1 : leadsInto (b.destination ++ [rootDirectory, sub])
      (b.source ++ [rootDirectory, sub]) = false :=
    leadsInto_append_of_incomp _ _ hI2 hI1
  have HX2 : leadsInto (b.source ++ [rootDirectory, sub])
      (b.destination ++ [rootDirectory, sub]) = false :=
    leadsInto_append_of_incomp _ _ hI1 hI2
  simp only [processSubdir] at h
  rw [makeDir_skip _ _ (by rw [hsrc]; rfl)] at h
  simp only [] at h
  split at h
  · simp at h
  · rename_i st2 hmd2
    split at h
    · rename_i cs' hlook
      have hsame : Entry.lookup st2.fs (b.source ++ [rootDirectory, sub]) =
          some (.dir cs) := by
        rw [makeDir_lookup_diverge _ hmd2 HX1 HX2]
        exact hsrc
      rw [hsame] at hlook
      cases hlook
      split at h
      · simp at h
      · rename_i pr n4 st4 hpes
        have hst := Option.some.inj h
        subst hst
        constructor
        · intro n c hfind
          have hsrcn : Entry.lookup st2.fs
              (b.source ++ [rootDirectory, sub] ++ [n]) = some (.file c) := by
            rw [Entry.lookup_append, hsame]
            simp [lookup_dir_single, hfind]
          have h1n : leadsInto (b.destination ++ [rootDirectory, sub])
              (b.source ++ [rootDirectory, sub] ++ [n]) = false :=
            (diverge_of_extend (leadsInto_append _ [n]) HX2 HX1).2
          have hd : ∃ csd, Entry.lookup st2.fs
              (b.destination ++ [rootDirectory, sub]) = some (.dir csd) := by
            rcases makeDir_inv hmd2 with ⟨hex0, heq2⟩ | ⟨hnone0, fs2, hmk, heq2⟩
            · rw [heq2]
              rw [heq2] at hpes
              cases hlk : Entry.lookup st.fs
                  (b.destination ++ [rootDirectory, sub]) with
              | none => rw [hlk] at hex0; simp at hex0
              | some e0 =>
                cases e0 with
                | dir csd => exact ⟨csd, rfl⟩
                | file cc =>
                  unfold isFileAt at hnotfile
                  rw [hlk] at hnotfile
                  simp at hnotfile
                | other =>
                  exact (pes2_dst_other_absurd cs hpes hlk hfind
                    (fun he => Entry.noConfusion he)).elim
            · rw [heq2]
              exact ⟨.nil, mkdirRaw_creates hmk⟩
          obtain ⟨csd, hd⟩ := hd
          have hw := pes2_writes_top cs hpes hfind hnodup hsrcn hd h1n
          exact hw
        · intro d cs2 hfind hnodup2 hnotfile_d m c hfindm
          have hsrcd : Entry.lookup st2.fs
              (b.source ++ [rootDirectory, sub] ++ [d]) = some (.dir cs2) := by
            rw [Entry.lookup_append, hsame]
            simp [lookup_dir_single, hfind]
          have hI1' : leadsInto (b.destination ++ [rootDirectory, sub])
              (b.source ++ [rootDirectory, sub] ++ [d]) = false :=
            (diverge_of_extend (leadsInto_append _ [d]) HX2 HX1).2
          have hI2' : leadsInto (b.source ++ [rootDirectory, sub] ++ [d])
              (b.destination ++ [rootDirectory, sub]) = false :=
            (diverge_of_extend (leadsInto_append _ [d]) HX2 HX1).1
          have hnotfile_d2 : isFileAt st2.fs
              (b.destination ++ [rootDirectory, sub] ++ [d]) = false := by
            rcases makeDir_inv hmd2 with ⟨hex0, heq2⟩ | ⟨hnone0, fs2, hmk, heq2⟩
            · rw [heq2]
              exact hnotfile_d
            · rw [heq2]
              unfold isFileAt
              rw [Entry.lookup_append, mkdirRaw_creates hmk]
              simp [lookup_dir_single, findChild]
          have E := pes2_dir_effect cs hpes hfind hnodup hsrcd hnodup2
            hnotfile_d2 hI1' hI2'
          exact E.2.1 m c hfindm
    · simp at h

theorem not_lead_of_incomp_ancestor {A q X : Path} (hq : leadsInto q X = true)
    (h1 : leadsInto A q = false) (h2 : leadsInto q A = false) :
    leadsInto A X = false := by
  cases hax : leadsInto A X with
  | false => rfl
  | true =>
    rcases leadsInto_comparable hax hq with hc | hc
    · rw [hc] at h1; exact Bool.noConfusion h1
    · rw [hc] at h2; exact Bool.noConfusion h2

theorem not_lead_rev_of_incomp_ancestor {A q X : Path} (hq : leadsInto q X = true)
    (h2 : leadsInto q A = false) : leadsInto X A = false := by
  cases hxa : leadsInto X A with
  | false => rfl
  | true => rw [leadsInto_trans hq hxa] at h2; exact Bool.noConfusion h2

theorem append_pair_eq (base : Path) (a b2 : String) :
    (base ++ [a]) ++ [b2] = base ++ [a, b2] := by
  rw [List.append_assoc]
  rfl

theorem leadsInto_sub_ne0 {base : Path} {s1 s2 : String} (hne : s1 ≠ s2) :
    leadsInto (base ++ [rootDirectory, s1]) (base ++ [rootDirectory, s2]) = false := by
  have h := leadsInto_snoc_ne (q := base ++ [rootDirectory]) hne
  rw [append_pair_eq, append_pair_eq] at h
  exact h

/-! ### Lemmas about the whole subdirectory loop -/

theorem rs_keeps_file {b : DashcamBackup} (L : List String) {st st' : St}
    {p : Path} {c0 : List Nat}
    (h : runSubdirs b L st = some st')
    (hf : Entry.lookup st.fs p = some (.file c0))
    (hc : ∀ s ∈ L, leadsInto (b.destination ++ [rootDirectory, s]) p = false) :
    Entry.lookup st'.fs p = some (.file c0) := by
  induction L generalizing st with
  | nil =>
    simp [runSubdirs] at h
    rw [← h]
    exact hf
  | cons s rest ih =>
    simp only [runSubdirs] at h
    cases hps : processSubdir b st s with
    | none => rw [hps] at h; simp at h
    | some st1 =>
      rw [hps] at h
      simp only [] at h
      have hf1 := psub_keeps_file hps hf (hc s (by simp))
      exact ih h hf1 (fun s2 hs2 => hc s2 (by simp [hs2]))

theorem rs_lookup_diverge {b : DashcamBackup} (L : List String) {st st' : St}
    (p : Path) (h : runSubdirs b L st = some st')
    (hc : ∀ s ∈ L,
      leadsInto (b.source ++ [rootDirectory, s]) p = false ∧
      leadsInto p (b.source ++ [rootDirectory, s]) = false ∧
      leadsInto (b.destination ++ [rootDirectory, s]) p = false ∧
      leadsInto p (b.destination ++ [rootDirectory, s]) = false) :
    Entry.lookup st'.fs p = Entry.lookup st.fs p := by
  induction L generalizing st with
  | nil =>
    simp [runSubdirs] at h
    rw [← h]
  | cons s rest ih =>
    simp only [runSubdirs] at h
    cases hps : processSubdir b st s with
    | none => rw [hps] at h; simp at h
    | some st1 =>
      rw [hps] at h
      simp only [] at h
      obtain ⟨c1, c2, c3, c4⟩ := hc s (by simp)
      have e1 := psub_lookup_diverge p hps c1 c2 c3 c4
      have e2 := ih h (fun s2 hs2 => hc s2 (by simp [hs2]))
      rw [e2, e1]

/-- A top-level source file of the processed clip subdirectory ends up,
with its content, at the same name below the destination clip
subdirectory, and survives the remaining subdirectory passes. -/
theorem rs_main_top {b : DashcamBackup} (L : List String) {st st' : St}
    {sub : String} {cs : Entries} {n : String} {c : List Nat}
    (h : runSubdirs b L st = some st')
    (hmem : sub ∈ L) (hnodupL : L.Nodup)
    (hI1 : leadsInto b.source b.destination = false)
    (hI2 : leadsInto b.destination b.source = false)
    (hsrc : Entry.lookup st.fs (b.source ++ [rootDirectory, sub]) = some (.dir cs))
    (hnodup : (entryNames cs).Nodup)
    (hnotfile : isFileAt st.fs (b.destination ++ [rootDirectory, sub]) = false)
    (hfind : findChild cs n = some (.file c)) :
    Entry.lookup st'.fs (b.destination ++ [rootDirectory, sub] ++ [n]) =
      some (.file c) := by
  induction L generalizing st with
  | nil => simp at hmem
  | cons s rest ih =>
    rw [List.nodup_cons] at hnodupL
    obtain ⟨hsnotin, hnodupL'⟩ := hnodupL
    simp only [runSubdirs] at h
    cases hps : processSubdir b st s with
    | none => rw [hps] at h; simp at h
    | some st1 =>
      rw [hps] at h
      simp only [] at h
      by_cases hs : s = sub
      · subst hs
        have E := psub_main hps hI1 hI2 hsrc hnodup hnotfile
        have hw := E.1 n c hfind
        refine rs_keeps_file rest h hw ?_
        intro s2 hs2
        have hne : s2 ≠ s := fun he => hsnotin (he ▸ hs2)
        exact not_lead_of_incomp_ancestor
          (leadsInto_append (b.destination ++ [rootDirectory, s]) [n])
          (leadsInto_sub_ne0 hne) (leadsInto_sub_ne0 (Ne.symm hne))
      · have hmem' : sub ∈ rest := by
          cases List.mem_cons.mp hmem with
          | inl he => exact absurd he.symm hs
          | inr hr => exact hr
        have hcross1 : leadsInto (b.destination ++ [rootDirectory, s])
            (b.source ++ [rootDirectory, sub]) = false :=
          leadsInto_append_of_incomp _ _ hI2 hI1
        have hcross2 : leadsInto (b.source ++ [rootDirectory, sub])
            (b.destination ++ [rootDirectory, s]) = false :=
          leadsInto_append_of_incomp _ _ hI1 hI2
        have hcross3 : leadsInto (b.source ++ [rootDirectory, s])
            (b.destination ++ [rootDirectory, sub]) = false :=
          leadsInto_append_of_incomp _ _ hI1 hI2
        have hcross4 : leadsInto (b.destination ++ [rootDirectory, sub])
            (b.source ++ [rootDirectory, s]) = false :=
          leadsInto_append_of_incomp _ _ hI2 hI1
        have hsrc1 : Entry.lookup st1.fs (b.source ++ [rootDirectory, sub]) =
            some (.dir cs) := by
          rw [psub_lookup_diverge _ hps (leadsInto_sub_ne0 hs)
            (leadsInto_sub_ne0 (Ne.symm hs)) hcross1 hcross2]
          exact hsrc
        have hnf1 : isFileAt st1.fs (b.destination ++ [rootDirectory, sub]) = false := by
          rw [isFileAt_congr (psub_lookup_diverge _ hps hcross3 hcross4
            (leadsInto_sub_ne0 hs) (leadsInto_sub_ne0 (Ne.symm hs)))]
          exact hnotfile
        exact ih h hmem' hnodupL' hsrc1 hnf1

/-- A source file one directory level below the processed clip
subdirectory ends up, with its content, in the same-named destination
subdirectory, and survives the remaining subdirectory passes. -/
theorem rs_main_nested {b : DashcamBackup} (L : List String) {st st' : St}
    {sub : String} {cs : Entries} {d m : String} {cs2 : Entries} {c : List Nat}
    (h : runSubdirs b L st = some st')
    (hmem : sub ∈ L) (hnodupL : L.Nodup)
    (hI1 : leadsInto b.source b.destination = false)
    (hI2 : leadsInto b.destination b.source = false)
    (hsrc : Entry.lookup st.fs (b.source ++ [rootDirectory, sub]) = some (.dir cs))
    (hnodup : (entryNames cs).Nodup)
    (hnotfile : isFileAt st.fs (b.destination ++ [rootDirectory, sub]) = false)
    (hfind : findChild cs d = some (.dir cs2))
    (hnodup2 : (entryNames cs2).Nodup)
    (hnotfiled : isFileAt st.fs (b.destination ++ [rootDirectory, sub] ++ [d]) = false)
    (hfindm : findChild cs2 m = some (.file c)) :
    Entry.lookup st'.fs (b.destination ++ [rootDirectory, sub] ++ [d] ++ [m]) =
      some (.file c) := by
  induction L generalizing st with
  | nil => simp at hmem
  | cons s rest ih =>
    rw [List.nodup_cons] at hnodupL
    obtain ⟨hsnotin, hnodupL'⟩ := hnodupL
    simp only [runSubdirs] at h
    cases hps : processSubdir b st s with
    | none => rw [hps] at h; simp at h
    | some st1 =>
      rw [hps] at h
      simp only [] at h
      by_cases hs : s = sub
      · subst hs
        have E := psub_main hps hI1 hI2 hsrc hnodup hnotfile
        have hw := E.2 d cs2 hfind hnodup2 hnotfiled m c hfindm
        refine rs_keeps_file rest h hw ?_
        intro s2 hs2
        have hne : s2 ≠ s := fun he => hsnotin (he ▸ hs2)
        have hq : leadsInto (b.destination ++ [rootDirectory, s])
            (b.destination ++ [rootDirectory, s] ++ [d] ++ [m]) = true :=
          leadsInto_trans (leadsInto_append _ [d]) (leadsInto_append _ [m])
        exact not_lead_of_incomp_ancestor hq
          (leadsInto_sub_ne0 hne) (leadsInto_sub_ne0 (Ne.symm hne))
      · have hmem' : sub ∈ rest := by
          cases List.mem_cons.mp hmem with
          | inl he => exact absurd he.symm hs
          | inr hr => exact hr
        have hcross1 : leadsInto (b.destination ++ [rootDirectory, s])
            (b.source ++ [rootDirectory, sub]) = false :=
          leadsInto_append_of_incomp _ _ hI2 hI1
        have hcross2 : leadsInto (b.source ++ [rootDirectory, sub])
            (b.destination ++ [rootDirectory, s]) = false :=
          leadsInto_append_of_incomp _ _ hI1 hI2
        have hcross3 : leadsInto (b.source ++ [rootDirectory, s])
            (b.destination ++ [rootDirectory, sub]) = false :=
          leadsInto_append_of_incomp _ _ hI1 hI2
        have hcross4 : leadsInto (b.destination ++ [rootDirectory, sub])
            (b.source ++ [rootDirectory, s]) = false :=
          leadsInto_append_of_incomp _ _ hI2 hI1
        have hsrc1 : Entry.lookup st1.fs (b.source ++ [rootDirectory, sub]) =
            some (.dir cs) := by
          rw [psub_lookup_diverge _ hps (leadsInto_sub_ne0 hs)
            (leadsInto_sub_ne0 (Ne.symm hs)) hcross1 hcross2]
          exact hsrc
        have hnf1 : isFileAt st1.fs (b.destination ++ [rootDirectory, sub]) = false := by
          rw [isFileAt_congr (psub_lookup_diverge _ hps hcross3 hcross4
            (leadsInto_sub_ne0 hs) (leadsInto_sub_ne0 (Ne.symm hs)))]
          exact hnotfile
        have hqd : leadsInto (b.destination ++ [rootDirectory, sub])
            (b.destination ++ [rootDirectory, sub] ++ [d]) = true :=
          leadsInto_append _ [d]
        have hnfd1 : isFileAt st1.fs
            (b.destination ++ [rootDirectory, sub] ++ [d]) = false := by
          rw [isFileAt_congr (psub_lookup_diverge _ hps
            (not_lead_of_incomp_ancestor hqd hcross3 hcross4)
            (not_lead_rev_of_incomp_ancestor hqd hcross4)
            (not_lead_of_incomp_ancestor hqd (leadsInto_sub_ne0 hs)
              (leadsInto_sub_ne0 (Ne.symm hs)))
            (not_lead_rev_of_incomp_ancestor hqd
              (leadsInto_sub_ne0 (Ne.symm hs))))]
          exact hnotfiled
        exact ih h hmem' hnodupL' hsrc1 hnf1 hnfd1

/-! ### Claim C2 -/

/-- Claim C2: divergence exhibit.  In the entry loop the `else` of the
unknown-entry note is attached to the `is_dir` check, not to a combined
file-or-directory check, so a verbose run over a source holding the
regular file `a.mp4` prints the `Unknown entry type` note for that
regular file — although the claim states that regular files never
produce this note.  The note is verbose-gated, as the quiet-run conjunct
shows. -/
theorem c2_unknown_note_fires_for_regular_file :
    Entry.lookup fsT ["src", "TeslaCam", "RecentClips", "a.mp4"] = some (.file [1]) ∧
    unknownMsg ["src", "TeslaCam", "RecentClips", "a.mp4"] ∈
      outOf (DashcamBackup.run bVerboseT fsT) ∧
    unknownMsg ["src", "TeslaCam", "RecentClips", "a.mp4"] ∉
      outOf (DashcamBackup.run bQuietT fsT) :=
  ⟨rfl, by decide, by decide⟩

/-! ### Claim C3 -/

/-- Claim C3: invoked on a platform other than Linux and Darwin with a
present, existing destination, the program prints the not-supported
report, performs no volume discovery or copying (the filesystem is
returned unchanged and the output holds only the report), and the
process ends with exit code 1.  In the source this exit happens through
the `NameError` raised by `if system_mount is None` — the annotated local
is never assigned on these platforms — which terminates the interpreter
with status 1. -/
theorem c3_unsupported_platform_exits_one
    (plat : String) (args : Args) (fs : Entry) (dest : Path)
    (h1 : plat ≠ "Linux") (h2 : plat ≠ "Darwin")
    (hdest : args.destination = some dest)
    (hexists : (Entry.lookup fs dest).isSome = true) :
    mainProgram args plat fs =
      some ⟨[if plat = "Windows" then "Running on Windows, not supported."
             else "Running on an unknown system, not supported."], 1, fs⟩ := by
  unfold mainProgram
  rw [hdest]
  simp only []
  rw [if_pos hexists]
  unfold matchPlatform
  rw [if_neg h1, if_neg h2]
  by_cases hw : plat = "Windows"
  · simp only [if_pos hw]
  · simp only [if_neg hw]

theorem c3_witness :
    mainProgram ⟨false, some ["dst"], false⟩ "Windows" fsDstOnlyT =
      some ⟨[if "Windows" = "Windows" then "Running on Windows, not supported."
             else "Running on an unknown system, not supported."], 1, fsDstOnlyT⟩ :=
  c3_unsupported_platform_exits_one "Windows" ⟨false, some ["dst"], false⟩
    fsDstOnlyT ["dst"] (by decide) (by decide) rfl rfl

/-! ### Claim C4 -/

/-- Claim C4: with the destination argument absent, or naming a
non-existent path, the program prints the matching error line, exits
with code 1, and performs no filesystem writes — the returned filesystem
is the input one, unchanged, and the output holds only the error line. -/
theorem c4_missing_or_invalid_destination
    (args : Args) (plat : String) (fs : Entry) :
    (args.destination = none →
      mainProgram args plat fs = some ⟨["Destination is required"], 1, fs⟩) ∧
    (∀ d, args.destination = some d → Entry.lookup fs d = none →
      mainProgram args plat fs =
        some ⟨["Destination " ++ pathStr d ++ " does not exist"], 1, fs⟩) := by
  constructor
  · intro h
    unfold mainProgram
    rw [h]
  · intro d hd hnone
    unfold mainProgram
    rw [hd]
    simp only []
    rw [hnone]
    rfl

theorem c4_witness :
    mainProgram ⟨false, none, false⟩ "Linux" fsDstOnlyT =
      some ⟨["Destination is required"], 1, fsDstOnlyT⟩ ∧
    mainProgram ⟨false, some ["nope"], false⟩ "Linux" fsDstOnlyT =
      some ⟨["Destination " ++ pathStr ["nope"] ++ " does not exist"], 1, fsDstOnlyT⟩ :=
  ⟨(c4_missing_or_invalid_destination ⟨false, none, false⟩ "Linux" fsDstOnlyT).1 rfl,
   (c4_missing_or_invalid_destination ⟨false, some ["nope"], false⟩ "Linux"
     fsDstOnlyT).2 ["nope"] rfl rfl⟩

/-! ### Claim C10 -/

/-- Claim C10: the destination validation precedes the `--list-only`
branch, so even an invocation with `listOnly` set exits with code 1 on a
missing or non-existent destination, before listing anything — the
output is exactly the one error line and the filesystem is unchanged. -/
theorem c10_list_only_still_requires_destination
    (args : Args) (plat : String) (fs : Entry)
    (hlist : args.listOnly = true) :
    (args.destination = none →
      mainProgram args plat fs = some ⟨["Destination is required"], 1, fs⟩) ∧
    (∀ d, args.destination = some d → Entry.lookup fs d = none →
      mainProgram args plat fs =
        some ⟨["Destination " ++ pathStr d ++ " does not exist"], 1, fs⟩) := by
  constructor
  · intro h
    unfold mainProgram
    rw [h]
  · intro d hd hnone
    unfold mainProgram
    rw [hd]
    simp only []
    rw [hnone]
    rfl

theorem c10_witness :
    mainProgram ⟨true, none, false⟩ "Linux" fsDstOnlyT =
      some ⟨["Destination is required"], 1, fsDstOnlyT⟩ ∧
    mainProgram ⟨true, some ["nope"], false⟩ "Linux" fsDstOnlyT =
      some ⟨["Destination " ++ pathStr ["nope"] ++ " does not exist"], 1, fsDstOnlyT⟩ :=
  ⟨(c10_list_only_still_requires_destination ⟨true, none, false⟩ "Linux"
      fsDstOnlyT rfl).1 rfl,
   (c10_list_only_still_requires_destination ⟨true, some ["nope"], false⟩ "Linux"
      fsDstOnlyT rfl).2 ["nope"] rfl rfl⟩

/-! ### Claim C5 -/

theorem sourceDirectoriesOf_eq_filter (cs : Entries) :
    sourceDirectoriesOf cs =
      ((Entries.toList cs).filter
        (fun pr => isDirE pr.2 && strStartsWith pr.1 driveNameStart)).map Prod.fst := by
  induction cs using Entries.spineInduction with
  | h0 => rfl
  | h1 n c rest ih =>
    simp only [sourceDirectoriesOf, Entries.toList, List.filter_cons]
    by_cases hc : (isDirE c && strStartsWith n driveNameStart) = true
    · simp [hc, ih]
    · simp [hc, ih]

/-- Claim C5: volume discovery on an existing mount root returns exactly
the names of the immediate child entries that are directories and whose
name starts with the fixed `TESLADRIVE` token; when no child matches it
returns the empty list rather than an error.  Discovery takes the
filesystem only as an input and returns names, so it performs no
writes. -/
theorem c5_volume_discovery (fs : Entry) (mount : Path) (cs : Entries)
    (hlook : Entry.lookup fs mount = some (.dir cs)) :
    sourceDirectories fs mount =
      some (((Entries.toList cs).filter
        (fun pr => isDirE pr.2 && strStartsWith pr.1 driveNameStart)).map Prod.fst) ∧
    ((∀ pr ∈ Entries.toList cs,
        (isDirE pr.2 && strStartsWith pr.1 driveNameStart) = false) →
      sourceDirectories fs mount = some []) := by
  have hbase : sourceDirectories fs mount = some (sourceDirectoriesOf cs) := by
    unfold sourceDirectories
    rw [hlook]
  constructor
  · rw [hbase, sourceDirectoriesOf_eq_filter]
  · intro hnone
    rw [hbase, sourceDirectoriesOf_eq_filter]
    have hfil : (Entries.toList cs).filter
        (fun pr => isDirE pr.2 && strStartsWith pr.1 driveNameStart) = [] := by
      rw [List.filter_eq_nil]
      intro a ha
      rw [hnone a ha]
      simp
    rw [hfil]
    rfl

theorem c5_witness : sourceDirectories fsMntT ["mnt"] = some ["TESLADRIVE1"] := by
  have E := (c5_volume_discovery fsMntT ["mnt"] mntT rfl).1
  rw [E]
  rfl

/-! ### Claim C6 -/

theorem leadsInto_init_of_proper {q par : Path} {n : String}
    (h : leadsInto q (par ++ [n]) = true) (hne : q ≠ par ++ [n]) :
    leadsInto q par = true := by
  induction q generalizing par with
  | nil => rfl
  | cons a q' ih =>
    cases par with
    | nil =>
      simp only [List.nil_append] at h hne
      by_cases han : a = n
      · subst han
        simp [leadsInto] at h
        cases q' with
        | nil => exact absurd rfl hne
        | cons b q'' => simp [leadsInto] at h
      · simp [leadsInto, han] at h
    | cons p0 par' =>
      rw [List.cons_append] at h hne
      by_cases hap : a = p0
      · subst hap
        simp [leadsInto] at h ⊢
        refine ih h ?_
        intro he
        exact hne (by rw [he])
      · simp [leadsInto, hap] at h

/-- Claim C6: `__make_directory_if_not_exist` performs single-level
creation.  When the leaf is missing and its parent is an existing
directory it creates exactly the empty leaf directory — no other absent
path comes into existence.  When the parent segment is missing the call
fails (the `os.mkdir` path-creation error, modelled as `none`) instead of
creating the chain, and such a failure on a computed clip-subdirectory
path aborts that subdirectory pass of the copy operation. -/
theorem c6_single_level_directory_creation
    (st : St) (par : Path) (n : String) (m1 m2 : String) :
    (Entry.lookup st.fs (par ++ [n]) = none →
      ∀ cs, Entry.lookup st.fs par = some (.dir cs) →
      ∃ st', makeDirectoryIfNotExist st (par ++ [n]) m1 m2 = some st' ∧
        Entry.lookup st'.fs (par ++ [n]) = some (.dir .nil) ∧
        ∀ q, q ≠ par ++ [n] → Entry.lookup st.fs q = none →
          Entry.lookup st'.fs q = none) ∧
    (Entry.lookup st.fs par = none →
      makeDirectoryIfNotExist st (par ++ [n]) m1 m2 = none) ∧
    (∀ (b : DashcamBackup) (sub : String),
      makeDirectoryIfNotExist st (b.source ++ [rootDirectory, sub])
        (srcNotExistMsg (b.source ++ [rootDirectory, sub]))
        (srcCreatingMsg (b.source ++ [rootDirectory, sub])) = none →
      processSubdir b st sub = none) := by
  refine ⟨?_, ?_, ?_⟩
  · intro hnone cs hpar
    obtain ⟨fs', hset⟩ := setAt_some_of_parent_dir par n (.dir .nil) hpar
    have hmk : mkdirRaw st.fs (par ++ [n]) = some fs' := by
      unfold mkdirRaw
      simp [isEmpty_append_singleton, hnone, List.dropLast_concat, hpar, hset]
    refine ⟨⟨fs', st.out ++ [m1, m2]⟩, ?_, ?_, ?_⟩
    · unfold makeDirectoryIfNotExist
      simp [hnone, hmk]
    · exact setAt_lookup_self _ hset
    · intro q hqne hqnone
      cases hlq : leadsInto (par ++ [n]) q with
      | true =>
        obtain ⟨r, hr⟩ := leadsInto_exists_rest hlq
        subst hr
        cases r with
        | nil => exact absurd (List.append_nil _) hqne
        | cons r0 rs =>
          rw [Entry.lookup_append, setAt_lookup_self _ hset]
          simp [Entry.lookup, findChild]
      | false =>
        cases hql : leadsInto q (par ++ [n]) with
        | true =>
          have hqp : leadsInto q par = true := leadsInto_init_of_proper hql hqne
          have hq := lookup_isSome_of_lead hpar hqp
          rw [hqnone] at hq
          simp at hq
        | false =>
          rw [setAt_lookup_diverge _ _ hset hlq hql]
          exact hqnone
  · intro hparnone
    have hleaf : Entry.lookup st.fs (par ++ [n]) = none :=
      lookup_none_append [n] hparnone
    unfold makeDirectoryIfNotExist mkdirRaw
    simp [hleaf, isEmpty_append_singleton, List.dropLast_concat, hparnone]
  · intro b sub hmd
    simp only [processSubdir]
    rw [hmd]

theorem c6_witness :
    (∃ st', makeDirectoryIfNotExist ⟨fsDstOnlyT, []⟩ (["dst"] ++ ["TeslaCam"]) "a" "b" =
        some st' ∧
      Entry.lookup st'.fs (["dst"] ++ ["TeslaCam"]) = some (.dir .nil) ∧
      ∀ q, q ≠ ["dst"] ++ ["TeslaCam"] → Entry.lookup fsDstOnlyT q = none →
        Entry.lookup st'.fs q = none) ∧
    makeDirectoryIfNotExist ⟨fsDstOnlyT, []⟩ (["zz"] ++ ["k"]) "a" "b" = none ∧
    processSubdir bQuietT ⟨fsDstOnlyT, []⟩ "RecentClips" = none :=
  ⟨(c6_single_level_directory_creation ⟨fsDstOnlyT, []⟩ ["dst"] "TeslaCam" "a" "b").1
      rfl .nil rfl,
   (c6_single_level_directory_creation ⟨fsDstOnlyT, []⟩ ["zz"] "k" "a" "b").2.1 rfl,
   (c6_single_level_directory_creation ⟨fsDstOnlyT, []⟩ ["x"] "y" "m" "m").2.2
      bQuietT "RecentClips" rfl⟩

/-! ### Claim C9 -/

theorem listLines_shapes :
    ∀ cs : Entries, ∀ loc lvl line, line ∈ Entries.listLines cs loc lvl →
      goodLine line := by
  refine @Entries.rec
    (fun e => ∀ n loc lvl line, line ∈ Entry.listLines e n loc lvl → goodLine line)
    (fun l => ∀ loc lvl line, line ∈ Entries.listLines l loc lvl → goodLine line)
    ?_ ?_ ?_ ?_ ?_
  · intro cc n loc lvl line hline
    simp only [Entry.listLines] at hline
    by_cases he : strEndsWith n ".mp4" = true
    · rw [if_pos he] at hline
      simp only [List.mem_singleton] at hline
      subst hline
      exact Or.inr (Or.inr ⟨lvl, n, he, rfl⟩)
    · rw [if_neg he] at hline
      simp at hline
  · intro cs ih n loc lvl line hline
    simp only [Entry.listLines] at hline
    rcases List.mem_cons.mp hline with h1 | h1
    · subst h1
      exact Or.inr (Or.inl ⟨lvl, n, rfl⟩)
    · rcases List.mem_cons.mp h1 with h2 | h2
      · subst h2
        exact Or.inl ⟨loc ++ [n], lvl + 1, rfl⟩
      · exact ih (loc ++ [n]) (lvl + 1) line h2
  · intro n loc lvl line h
    simp [Entry.listLines] at h
  · intro loc lvl line h
    simp [Entries.listLines] at h
  · intro a e rest ihe ihr loc lvl line h
    simp only [Entries.listLines] at h
    rcases List.mem_append.mp h with h1 | h2
    · exact ihe a loc lvl line h1
    · exact ihr loc lvl line h2

theorem listLocation_shape {fs : Entry} {loc : Path} {lvl : Nat}
    {out : List String} (h : listLocation fs loc lvl = some out) :
    ∀ line ∈ out, goodLine line := by
  unfold listLocation at h
  split at h
  · rename_i cs hlook
    have ho := Option.some.inj h
    subst ho
    intro line hline
    rcases List.mem_cons.mp hline with h1 | h1
    · subst h1
      exact Or.inl ⟨loc, lvl, rfl⟩
    · exact listLines_shapes cs loc lvl line h1
  · simp at h

theorem listContentsSubdirs_shape {b : DashcamBackup} {fs : Entry} :
    ∀ (L : List String) (out : List String),
      listContentsSubdirs b fs L = some out → ∀ line ∈ out, goodLine line := by
  intro L
  induction L with
  | nil =>
    intro out h
    simp [listContentsSubdirs] at h
    intro line hline
    rw [h] at hline
    simp at hline
  | cons s rest ih =>
    intro out h
    simp only [listContentsSubdirs] at h
    cases hloc : listLocation fs (b.source ++ [rootDirectory, s]) 1 with
    | none => rw [hloc] at h; simp at h
    | some out1 =>
      rw [hloc] at h
      simp only [] at h
      cases hrest : listContentsSubdirs b fs rest with
      | none => rw [hrest] at h; simp at h
      | some out2 =>
        rw [hrest] at h
        simp only [] at h
        have ho := Option.some.inj h
        subst ho
        intro line hline
        rcases List.mem_append.mp hline with h1 | h2
        · exact listLocation_shape hloc line h1
        · exact ih out2 hrest line h2

/-- Claim C9: listing mode on the tree holding `a.mp4`, `b.txt` and
`c/d.mp4` prints `a.mp4` (indented one level), omits `b.txt`, recurses
into `c` and prints `d.mp4` indented one level deeper, and copies
nothing (the listing functions take the filesystem only as input).  In
general every printed line is a listing header, a directory line, or a
file line whose name ends in `.mp4`, at any recursion depth. -/
theorem c9_listing_mode :
    DashcamBackup.listContents bQuietT fsT = some
      ["\n  Listing contents of /src/TeslaCam/RecentClips\n",
       "  a.mp4 (File)",
       "  c (Directory)",
       "\n    Listing contents of /src/TeslaCam/RecentClips/c\n",
       "    d.mp4 (File)",
       "\n  Listing contents of /src/TeslaCam/SavedClips\n",
       "\n  Listing contents of /src/TeslaCam/SentryClips\n"] ∧
    (∀ (b : DashcamBackup) (fs : Entry) (out : List String),
      DashcamBackup.listContents b fs = some out → ∀ line ∈ out, goodLine line) := by
  constructor
  · rfl
  · intro b fs out h
    exact listContentsSubdirs_shape subDirectories out h

theorem c9_witness : goodLine "  a.mp4 (File)" :=
  c9_listing_mode.2 bQuietT fsT
    ["\n  Listing contents of /src/TeslaCam/RecentClips\n",
     "  a.mp4 (File)",
     "  c (Directory)",
     "\n    Listing contents of /src/TeslaCam/RecentClips/c\n",
     "    d.mp4 (File)",
     "\n  Listing contents of /src/TeslaCam/SavedClips\n",
     "\n  Listing contents of /src/TeslaCam/SentryClips\n"]
    rfl "  a.mp4 (File)" (by decide)

/-! ### Claim C1 -/

/-- Claim C1: counterexample.  The source tree holds only regular files
and one level of nested directories (`RecentClips/d/m.mp4`), but the
destination already holds a regular file named `d` where the source has
the nested directory.  The run succeeds, yet the destination does not
contain the source file set: `dst/.../d/m.mp4` is absent, because the
run silently overwrote the file `d` with the nested clip's content. -/
theorem c1_counterexample :
    (DashcamBackup.run bQuietT fsClashT).isSome = true ∧
    Entry.lookup fsClashT ["src", "TeslaCam", "RecentClips", "d", "m.mp4"] =
      some (.file [7]) ∧
    (DashcamBackup.run bQuietT fsClashT).map
      (fun st => Entry.lookup st.fs ["dst", "TeslaCam", "RecentClips", "d", "m.mp4"]) =
      some none ∧
    (DashcamBackup.run bQuietT fsClashT).map
      (fun st => Entry.lookup st.fs ["dst", "TeslaCam", "RecentClips", "d"]) =
      some (some (.file [7])) :=
  ⟨rfl, rfl, rfl, rfl⟩

/-- Claim C1 (amended): for a source clip subdirectory holding regular
files and one level of nested directories (with distinct entry names),
a successful run copies every file, byte for byte, to the identical
relative path below the destination clip subdirectory — overwriting any
destination file of the same name, with no duplicate and no renamed
version — provided the destination paths matching the clip subdirectory
and the source nested directories are not occupied by regular files. -/
theorem c1_run_copies_contents
    (b : DashcamBackup) (fs : Entry) (st' : St) (sub : String) (cs : Entries)
    (hI1 : leadsInto b.source b.destination = false)
    (hI2 : leadsInto b.destination b.source = false)
    (hrun : DashcamBackup.run b fs = some st')
    (hsub : sub ∈ subDirectories)
    (hsrc : Entry.lookup fs (b.source ++ [rootDirectory, sub]) = some (.dir cs))
    (hnodup : (entryNames cs).Nodup)
    (hnotfile : isFileAt fs (b.destination ++ [rootDirectory, sub]) = false) :
    (∀ n c, findChild cs n = some (.file c) →
      Entry.lookup st'.fs (b.destination ++ [rootDirectory, sub] ++ [n]) =
        some (.file c)) ∧
    (∀ d cs2, findChild cs d = some (.dir cs2) → (entryNames cs2).Nodup →
      isFileAt fs (b.destination ++ [rootDirectory, sub] ++ [d]) = false →
      ∀ m c, findChild cs2 m = some (.file c) →
        Entry.lookup st'.fs (b.destination ++ [rootDirectory, sub] ++ [d] ++ [m]) =
          some (.file c)) := by
  unfold DashcamBackup.run at hrun
  have hnodupL : subDirectories.Nodup := by decide
  constructor
  · intro n c hfind
    exact rs_main_top subDirectories hrun hsub hnodupL hI1 hI2 hsrc hnodup
      hnotfile hfind
  · intro d cs2 hfind hnodup2 hnotfiled m c hfindm
    exact rs_main_nested subDirectories hrun hsub hnodupL hI1 hI2 hsrc hnodup
      hnotfile hfind hnodup2 hnotfiled hfindm

theorem c1_witness :
    (DashcamBackup.run bQuietT fsT).map
        (fun st => Entry.lookup st.fs ["dst", "TeslaCam", "RecentClips", "a.mp4"]) =
      some (some (.file [1])) ∧
    (DashcamBackup.run bQuietT fsT).map
        (fun st => Entry.lookup st.fs ["dst", "TeslaCam", "RecentClips", "c", "d.mp4"]) =
      some (some (.file [3])) := by
  cases hrun : DashcamBackup.run bQuietT fsT with
  | none =>
    have hs : (DashcamBackup.run bQuietT fsT).isSome = true := rfl
    rw [hrun] at hs
    exact Bool.noConfusion hs
  | some st' =>
    have E := c1_run_copies_contents bQuietT fsT st' "RecentClips" recentClipsT
      rfl rfl hrun (by decide) rfl (by decide) rfl
    constructor
    · have h1 := E.1 "a.mp4" [1] rfl
      exact congrArg some h1
    · have h2 := E.2 "c" (.cons "d.mp4" (.file [3]) .nil) rfl (by decide) rfl
        "d.mp4" [3] rfl
      exact congrArg some h2

/-! ### Claim C7 -/

/-- Claim C7: counterexample.  The source holds the immediate
subdirectory `d` with the clip `m.mp4` inside, but the destination
already holds a regular file named `d`.  The entry is processed
successfully, yet no destination subdirectory `d` results and the nested
clip is not at `t/d/m.mp4`: the file `d` was silently overwritten with
the clip's content instead. -/
theorem c7_counterexample :
    (processEntry bPeT ["s"] ["t"] ⟨fsPeClashT, []⟩ "d" (.dir peClashChildrenT)).isSome
      = true ∧
    Entry.lookup fsPeClashT ["s", "d", "m.mp4"] = some (.file [5]) ∧
    (processEntry bPeT ["s"] ["t"] ⟨fsPeClashT, []⟩ "d" (.dir peClashChildrenT)).map
      (fun st => Entry.lookup st.fs ["t", "d", "m.mp4"]) = some none ∧
    (processEntry bPeT ["s"] ["t"] ⟨fsPeClashT, []⟩ "d" (.dir peClashChildrenT)).map
      (fun st => Entry.lookup st.fs ["t", "d"]) = some (some (.file [5])) :=
  ⟨rfl, rfl, rfl, rfl⟩

/-- Claim C7 (amended): a directory entry that is an immediate
subdirectory of the clip subdirectory gets its regular files copied into
the same-named destination subdirectory (created when the destination
path is absent), directories nested one level further are not copied,
and each non-file sub-entry yields the depth diagnostic note exactly
when verbose mode is on — provided the destination path of that
subdirectory name is not occupied by a regular file. -/
theorem c7_nested_directory_copy
    (b : DashcamBackup) (sp dstPath : Path) (st st' : St) (d : String)
    (cs2 : Entries)
    (h : processEntry b sp dstPath st d (.dir cs2) = some st')
    (hsrc : Entry.lookup st.fs (sp ++ [d]) = some (.dir cs2))
    (hnodup2 : (entryNames cs2).Nodup)
    (hnotfile : isFileAt st.fs (dstPath ++ [d]) = false)
    (hI1 : leadsInto dstPath (sp ++ [d]) = false)
    (hI2 : leadsInto (sp ++ [d]) dstPath = false) :
    (Entry.lookup st.fs (dstPath ++ [d]) = none →
      ∃ cs3, Entry.lookup st'.fs (dstPath ++ [d]) = some (.dir cs3)) ∧
    (∀ m c, findChild cs2 m = some (.file c) →
      Entry.lookup st'.fs (dstPath ++ [d] ++ [m]) = some (.file c)) ∧
    (∀ m e, findChild cs2 m = some e → isDirE e = true →
      Entry.lookup st.fs (dstPath ++ [d] ++ [m]) = none →
      Entry.lookup st'.fs (dstPath ++ [d] ++ [m]) = none) ∧
    (b.verbose = true → ∀ m e, findChild cs2 m = some e → isFileE e = false →
      depthMsg (sp ++ [d] ++ [m]) ∈ st'.out) ∧
    (b.verbose = false → st'.out = st.out) :=
  pe_dir_effect h hsrc hnodup2 hnotfile hI1 hI2

theorem c7_witness :
    (processEntry bPeT ["s"] ["t"] ⟨fsPeGoodT, []⟩ "d" (.dir peGoodChildrenT)).map
      (fun st => Entry.lookup st.fs (["t"] ++ ["d"] ++ ["m.mp4"])) =
      some (some (.file [5])) ∧
    depthMsg (["s"] ++ ["d"] ++ ["deep"]) ∈
      outOf (processEntry bPeT ["s"] ["t"] ⟨fsPeGoodT, []⟩ "d" (.dir peGoodChildrenT)) := by
  cases hpe : processEntry bPeT ["s"] ["t"] ⟨fsPeGoodT, []⟩ "d" (.dir peGoodChildrenT) with
  | none =>
    have hs : (processEntry bPeT ["s"] ["t"] ⟨fsPeGoodT, []⟩ "d"
        (.dir peGoodChildrenT)).isSome = true := rfl
    rw [hpe] at hs
    exact Bool.noConfusion hs
  | some st' =>
    have E := c7_nested_directory_copy bPeT ["s"] ["t"] ⟨fsPeGoodT, []⟩ st' "d"
      peGoodChildrenT hpe rfl (by decide) rfl rfl rfl
    constructor
    · exact congrArg some (E.2.1 "m.mp4" [5] rfl)
    · exact E.2.2.2.1 rfl "deep" (.dir .nil) rfl rfl

/-! ### Claim C8 -/

theorem mkdirRaw_pair_some {fs : Entry} {base : Path} {a b2 : String}
    {cs : Entries}
    (hnone : Entry.lookup fs (base ++ [a, b2]) = none)
    (hpar : Entry.lookup fs (base ++ [a]) = some (.dir cs)) :
    ∃ fs', mkdirRaw fs (base ++ [a, b2]) = some fs' ∧
      Entry.setAt fs (base ++ [a, b2]) (.dir .nil) = some fs' := by
  obtain ⟨fs', hset⟩ := setAt_some_of_parent_dir (base ++ [a]) b2 (.dir .nil) hpar
  rw [append_pair_eq] at hset
  refine ⟨fs', ?_, hset⟩
  unfold mkdirRaw
  have hemp : (base ++ [a, b2]).isEmpty = false := by
    rw [← append_pair_eq]
    exact isEmpty_append_singleton _ _
  have hdl : (base ++ [a, b2]).dropLast = base ++ [a] := by
    rw [← append_pair_eq]
    exact List.dropLast_concat
  simp [hemp, hnone, hdl, hpar, hset]

/-- Claim C8: when one clip subdirectory is missing from the source (and
destination), with the `TeslaCam` roots present as directories on both
sides, the subdirectory pass succeeds: it creates the subdirectory empty
on both sides, reports zero entries copied for it (the
`Processed 0 entries` line, printed when verbose mode is on), and the
subdirectory loop continues with the remaining subdirectories instead of
failing the run. -/
theorem c8_missing_subdirectory_created_empty
    (b : DashcamBackup) (st : St) (sub : String) (rest : List String)
    (css csd : Entries)
    (hI1 : leadsInto b.source b.destination = false)
    (hI2 : leadsInto b.destination b.source = false)
    (hsrcnone : Entry.lookup st.fs (b.source ++ [rootDirectory, sub]) = none)
    (hsp : Entry.lookup st.fs (b.source ++ [rootDirectory]) = some (.dir css))
    (hdstnone : Entry.lookup st.fs (b.destination ++ [rootDirectory, sub]) = none)
    (hdp : Entry.lookup st.fs (b.destination ++ [rootDirectory]) = some (.dir csd)) :
    ∃ st', processSubdir b st sub = some st' ∧
      Entry.lookup st'.fs (b.source ++ [rootDirectory, sub]) = some (.dir .nil) ∧
      Entry.lookup st'.fs (b.destination ++ [rootDirectory, sub]) = some (.dir .nil) ∧
      (b.verbose = true →
        processedMsg 0 (b.source ++ [rootDirectory, sub])
          (b.destination ++ [rootDirectory, sub]) ∈ st'.out) ∧
      runSubdirs b (sub :: rest) st = runSubdirs b rest st' := by
  obtain ⟨fs1, hmk1, hset1⟩ := mkdirRaw_pair_some hsrcnone hsp
  have hcross1 : leadsInto (b.source ++ [rootDirectory, sub])
      (b.destination ++ [rootDirectory, sub]) = false :=
    leadsInto_append_of_incomp _ _ hI1 hI2
  have hcross2 : leadsInto (b.destination ++ [rootDirectory, sub])
      (b.source ++ [rootDirectory, sub]) = false :=
    leadsInto_append_of_incomp _ _ hI2 hI1
  have hcross3 : leadsInto (b.source ++ [rootDirectory, sub])
      (b.destination ++ [rootDirectory]) = false :=
    leadsInto_append_of_incomp _ _ hI1 hI2
  have hsrc1 : Entry.lookup fs1 (b.source ++ [rootDirectory, sub]) =
      some (.dir .nil) := setAt_lookup_self _ hset1
  have hdstnone1 : Entry.lookup fs1 (b.destination ++ [rootDirectory, sub]) = none := by
    rw [setAt_lookup_diverge _ _ hset1 hcross1 hcross2]
    exact hdstnone
  have hdp1 : Entry.lookup fs1 (b.destination ++ [rootDirectory]) =
      some (.dir csd) := by
    rw [setAt_lookup_diverge _ _ hset1 hcross3
      (leadsInto_append_of_incomp _ _ hI2 hI1)]
    exact hdp
  obtain ⟨fs2, hmk2, hset2⟩ := mkdirRaw_pair_some hdstnone1 hdp1
  have hsrc2 : Entry.lookup fs2 (b.source ++ [rootDirectory, sub]) =
      some (.dir .nil) := by
    rw [setAt_lookup_diverge _ _ hset2 hcross2 hcross1]
    exact hsrc1
  have hdst2 : Entry.lookup fs2 (b.destination ++ [rootDirectory, sub]) =
      some (.dir .nil) := setAt_lookup_self _ hset2
  have hmd1 : makeDirectoryIfNotExist st (b.source ++ [rootDirectory, sub])
      (srcNotExistMsg (b.source ++ [rootDirectory, sub]))
      (srcCreatingMsg (b.source ++ [rootDirectory, sub])) =
      some ⟨fs1, st.out ++ [srcNotExistMsg (b.source ++ [rootDirectory, sub]),
        srcCreatingMsg (b.source ++ [rootDirectory, sub])]⟩ := by
    unfold makeDirectoryIfNotExist
    simp [hsrcnone, hmk1]
  have hmd2 : makeDirectoryIfNotExist
      ⟨fs1, st.out ++ [srcNotExistMsg (b.source ++ [rootDirectory, sub]),
        srcCreatingMsg (b.source ++ [rootDirectory, sub])]⟩
      (b.destination ++ [rootDirectory, sub])
      (dstNotExistMsg (b.destination ++ [rootDirectory, sub]))
      (dstCreatingMsg (b.destination ++ [rootDirectory, sub])) =
      some ⟨fs2, (st.out ++ [srcNotExistMsg (b.source ++ [rootDirectory, sub]),
          srcCreatingMsg (b.source ++ [rootDirectory, sub])]) ++
        [dstNotExistMsg (b.destination ++ [rootDirectory, sub]),
          dstCreatingMsg (b.destination ++ [rootDirectory, sub])]⟩ := by
    unfold makeDirectoryIfNotExist
    simp [hdstnone1, hmk2]
  have hps : processSubdir b st sub = some ⟨fs2,
      (((st.out ++ [srcNotExistMsg (b.source ++ [rootDirectory, sub]),
          srcCreatingMsg (b.source ++ [rootDirectory, sub])]) ++
        [dstNotExistMsg (b.destination ++ [rootDirectory, sub]),
          dstCreatingMsg (b.destination ++ [rootDirectory, sub])]) ++
        (if b.verbose = true then
          ["Processing " ++ sub ++ " from " ++ pathStr b.source ++ " to " ++
            pathStr b.destination] else [])) ++
        (if b.verbose = true then
          [processedMsg 0 (b.source ++ [rootDirectory, sub])
            (b.destination ++ [rootDirectory, sub])] else [])⟩ := by
    simp only [processSubdir]
    rw [hmd1]
    simp only []
    rw [hmd2]
    simp only []
    rw [hsrc2]
    simp only [processEntries]
  refine ⟨_, hps, hsrc2, hdst2, ?_, ?_⟩
  · intro hv
    simp [hv]
  · simp only [runSubdirs]
    rw [hps]

theorem c8_witness :
    ∃ st', processSubdir bVerboseT ⟨fsEmptyRootsT, []⟩ "RecentClips" = some st' ∧
      Entry.lookup st'.fs (bVerboseT.source ++ [rootDirectory, "RecentClips"]) =
        some (.dir .nil) ∧
      Entry.lookup st'.fs (bVerboseT.destination ++ [rootDirectory, "RecentClips"]) =
        some (.dir .nil) ∧
      (bVerboseT.verbose = true →
        processedMsg 0 (bVerboseT.source ++ [rootDirectory, "RecentClips"])
          (bVerboseT.destination ++ [rootDirectory, "RecentClips"]) ∈ st'.out) ∧
      runSubdirs bVerboseT ("RecentClips" :: ["SavedClips", "SentryClips"])
          ⟨fsEmptyRootsT, []⟩ =
        runSubdirs bVerboseT ["SavedClips", "SentryClips"] st' :=
  c8_missing_subdirectory_created_empty bVerboseT ⟨fsEmptyRootsT, []⟩ "RecentClips"
    ["SavedClips", "SentryClips"] .nil .nil rfl rfl rfl rfl rfl rfl

end DashcamModel
